import Mathlib

/-!
Verification of the module-orchestration core of arch-me-later.

This file gives a shallow embedding of the two core source files,
src/arch_me_later/modules/executor.py (ModuleSpec, ProcessError,
ModuleExecutor) and src/arch_me_later/modules/orchestrator.py
(OrchestrationError, PipelineOrchestrator), and proves properties of the
embedding.

Modelling conventions:
- Environments (os.environ and the dicts built from it) are functions
  String to Option String; dict.update is right-biased overlay.
- A child process's behaviour is abstracted by ProcBehavior: its eventual
  exit code, whether it outruns a configured timeout, whether it exits
  during the graceful-termination grace period, and its output lines.
- asyncio control flow is embedded deterministically: the per-level
  TaskGroup and gather of orchestrator.run become folds over the sorted
  level lists; cancellation and the semaphore discipline are modelled by
  an explicit labelled transition system (SemState/SemStep below).
- Python exceptions become Except values; the distinct exception classes
  become constructors of ExecError / ConfigError / RunError.
-/

/-- An environment mapping (os.environ or a dict built from it). -/
def Env : Type := String → Option String

/-- Errors escaping ModuleExecutor.execute: ProcessError (executor.py line
48), asyncio.TimeoutError and asyncio.CancelledError (executor.py line 164). -/
inductive ExecError where
  | processError (cmd : List String) (returncode : Int)
  | timeoutError
  | cancelled
deriving DecidableEq, Repr

/-- Signals that execute's cleanup path can send to the child's process
group (executor.py lines 167-186). -/
inductive Sig where
  | sigterm
  | sigkill
deriving DecidableEq, Repr

/-- Outcome of dispatching one output line to a callback
(ModuleExecutor._dispatch, executor.py lines 69-78): either the callback
ran to completion, or it raised and the exception was logged. -/
inductive DispatchResult where
  | delivered
  | errorLogged
deriving DecidableEq, Repr

/-- Abstract behaviour of one spawned child process.
- rc: the exit code the process eventually exits with;
- exceedsTimeout: true when the process outlives the configured timeout
  (only consulted when a timeout was configured);
- exitedBeforeCleanup: true when, on an interruption, the process had
  already exited by the time the except-branch runs its returncode check
  (executor.py line 165);
- exitsOnTerm: true when the process exits within terminate_grace after
  receiving the graceful termination signal;
- outputLines: the decoded lines the process writes to its captured
  stream(s). -/
structure ProcBehavior where
  rc : Int
  exceedsTimeout : Bool
  exitedBeforeCleanup : Bool
  exitsOnTerm : Bool
  outputLines : List String
deriving DecidableEq, Repr

/-- Declarative spec for a single module run (executor.py lines 21-45).
Callbacks are modelled as functions that may fail (a raising callback). -/
structure ModuleSpec where
  name : String
  cmd : List String
  path : String
  env : Option (List (String × String))
  timeout : Option Nat
  check : Bool
  deps : List String
  stdout_cb : Option (String → Except String Unit)
  stderr_cb : Option (String → Except String Unit)

/-- A ModuleSpec built with only the three required dataclass arguments;
the remaining fields take the dataclass defaults of executor.py lines
40-45, in particular check = True. -/
def ModuleSpec.mkDefault (name : String) (cmd : List String) (path : String) : ModuleSpec :=
  { name := name, cmd := cmd, path := path, env := none, timeout := none,
    check := true, deps := [], stdout_cb := none, stderr_cb := none }

/-- ModuleExecutor._build_env (executor.py lines 63-67): copy the parent
environment and overlay the given mapping; for duplicate keys in the
overlay list the last binding wins, as for dict.update. -/
def buildEnv (base : Env) (env : Option (List (String × String))) : Env :=
  fun k =>
    match env with
    | none => base k
    | some l =>
      match l.reverse.find? (fun p => p.1 == k) with
      | some p => some p.2
      | none => base k

/-- The state of one ModuleExecutor (executor.py lines 55-61): the working
directory and the environment built at construction time. -/
structure ModuleExecutor where
  module_path : String
  env : Env

/-- ModuleExecutor.__init__ (executor.py lines 58-61): stores the module
path and builds self.env from the parent environment and the env argument. -/
def ModuleExecutor.make (parentEnv : Env) (module_path : String)
    (env : Option (List (String × String))) : ModuleExecutor :=
  { module_path := module_path, env := buildEnv parentEnv env }

/-- The environment actually passed to create_subprocess_exec by execute
(executor.py line 128): self._build_env(env) applied to execute's own env
parameter. _build_env reads os.environ and its argument only, so the
executor's stored self.env plays no part here; the exe parameter is
present because execute is a method on the executor. -/
def executeSpawnEnv (exe : ModuleExecutor) (parentEnv : Env)
    (envArg : Option (List (String × String))) : Env :=
  buildEnv parentEnv envArg

/-- The env argument _run_one passes to the ModuleExecutor constructor
(orchestrator.py line 98): dict(spec.env) if spec.env else None, where an
absent or empty mapping is falsy. -/
def specEnvArg (spec : ModuleSpec) : Option (List (String × String)) :=
  match spec.env with
  | some l => if l.isEmpty then none else some l
  | none => none

/-- The environment the child spawned for a module by _run_one runs with:
_run_one builds the executor with the spec's env (orchestrator.py lines
97-99) but then calls execute without an env argument (lines 100-108). -/
def runOneSpawnEnv (parentEnv : Env) (spec : ModuleSpec) : Env :=
  let exe := ModuleExecutor.make parentEnv spec.path (specEnvArg spec)
  executeSpawnEnv exe parentEnv none

/-- ModuleExecutor._dispatch (executor.py lines 69-78): run the callback;
if it raises, log the exception and swallow it. The total return type
records that no exception propagates out of dispatch. -/
def dispatchModel (cb : String → Except String Unit) (text : String) : DispatchResult :=
  match cb text with
  | .ok _ => .delivered
  | .error _ => .errorLogged

/-- Python str.rstrip with the two newline characters, as used on each
decoded line (executor.py line 96). -/
def stripNewline (s : String) : String :=
  s.dropRightWhile (fun c => c == '\r' || c == '\n')

/-- ModuleExecutor._read_stream (executor.py lines 80-97): read the stream
to exhaustion, strip the trailing newline of each line and dispatch it.
The loop is total: dispatch never re-raises a callback error. -/
def readStreamModel (cb : String → Except String Unit) (lines : List String) :
    List DispatchResult :=
  lines.map (fun l => dispatchModel cb (stripNewline l))

/-- Observable outcome of one ModuleExecutor.execute call: the returned or
raised result, the signals the cleanup path sent to the process group (in
order), whether the child was waited on to completion, whether the
stream-reading tasks were awaited or cancelled-and-drained, and the
dispatch outcomes of the streamed lines. -/
structure ExecTrace where
  result : Except ExecError Int
  signalsSent : List Sig
  procReaped : Bool
  tasksDrained : Bool
  streamResults : List DispatchResult

/-- The default of execute's check parameter (executor.py line 110). -/
def executeDefaultCheck : Bool := false

/-- ModuleExecutor.execute (executor.py lines 99-211) on a process with
behaviour beh.
- Normal path (lines 151-162): wait for exit (bounded by the timeout when
  one is set), await the stream readers, then either raise ProcessError
  (check and non-zero exit) or return the exit code.
- Interrupt path (lines 164-192), taken on timeout or cancellation: if the
  process has not exited, signal the process group with SIGTERM, wait up
  to terminate_grace, escalate to SIGKILL if it still runs, wait for exit;
  then cancel and drain the reader tasks and re-raise the original
  condition.
The cancelled parameter models an external CancelledError arriving while
awaiting the process. -/
def executeTrace (cmd : List String) (cb : String → Except String Unit)
    (timeoutSet : Bool) (check : Bool) (cancelled : Bool) (beh : ProcBehavior) :
    ExecTrace :=
  let streams := readStreamModel cb beh.outputLines
  if cancelled || (timeoutSet && beh.exceedsTimeout) then
    if beh.exitedBeforeCleanup then
      { result := .error (if cancelled then .cancelled else .timeoutError),
        signalsSent := [], procReaped := true, tasksDrained := true,
        streamResults := streams }
    else
      { result := .error (if cancelled then .cancelled else .timeoutError),
        signalsSent := if beh.exitsOnTerm then [.sigterm] else [.sigterm, .sigkill],
        procReaped := true, tasksDrained := true, streamResults := streams }
  else if check && beh.rc != 0 then
    { result := .error (.processError cmd beh.rc), signalsSent := [],
      procReaped := true, tasksDrained := true, streamResults := streams }
  else
    { result := .ok beh.rc, signalsSent := [], procReaped := true,
      tasksDrained := true, streamResults := streams }

/-- Configuration errors raised by PipelineOrchestrator.__init__ and
_topological_levels (orchestrator.py lines 43-47, 60, 87). -/
inductive ConfigError where
  | nonPositiveConcurrency
  | duplicateNames
  | unknownDependency (moduleName : String) (dep : String)
  | cycle
deriving DecidableEq, Repr

/-- Errors escaping PipelineOrchestrator.run: a configuration error (never
actually raised there), the exception group escaping the fail-fast
TaskGroup (orchestrator.py lines 128-137), or OrchestrationError
(orchestrator.py lines 13-20, raised at line 152). -/
inductive RunError where
  | config (e : ConfigError)
  | failFast (errs : List (String × ExecError))
  | orchestration (failures : List (String × ExecError))
deriving DecidableEq, Repr

/-- The dependency validation loop of _topological_levels (orchestrator.py
lines 57-60): the first (module, dep) pair whose dep names no known
module, in iteration order. -/
def firstUnknown (modules : List ModuleSpec) : Option (String × String) :=
  modules.findSome? (fun m =>
    (m.deps.find? (fun d => !(modules.any (fun m2 => m2.name == d)))).map
      (fun d => (m.name, d)))

/-- The deps list of the module registered under name n (the dict
self._modules keyed by name; names are unique when this is consulted). -/
def depsOf (modules : List ModuleSpec) (n : String) : List String :=
  match modules.find? (fun m => m.name == n) with
  | some m => m.deps
  | none => []

/-- The in-degree dict after the counting loop of orchestrator.py lines
63-67: each module's entry counts its declared deps (with multiplicity). -/
def indeg0 (modules : List ModuleSpec) (n : String) : Int :=
  ((depsOf modules n).length : Int)

/-- The forward-adjacency dict after the loop of orchestrator.py lines
64-68: children d lists the name of every module that declares d as a
dependency, in module order, once per occurrence. -/
def childrenOf (modules : List ModuleSpec) (d : String) : List String :=
  modules.flatMap (fun m => (m.deps.filter (fun x => x == d)).map (fun _ => m.name))

/-- One step of the inner loop of orchestrator.py lines 80-83: decrement
the in-degree of a dependent and move it to the new frontier when its
in-degree reaches exactly zero. -/
def stepChild (st : (String → Int) × List String) (c : String) :
    (String → Int) × List String :=
  let indeg := fun x => if x == c then st.1 x - 1 else st.1 x
  (indeg, if indeg c == 0 then st.2 ++ [c] else st.2)

/-- Processing one level (orchestrator.py lines 78-83): the nested loops
over the level's nodes and their children, flattened into one fold. -/
def processLevel (children : String → List String) (level : List String)
    (indeg : String → Int) : (String → Int) × List String :=
  (level.flatMap children).foldl stepChild (indeg, [])

/-- Lexicographic comparison of character lists by code point, the order
Python's sorted uses on str values. -/
def lexLe : List Char → List Char → Bool
  | [], _ => true
  | _ :: _, [] => false
  | c :: cs, d :: ds => if c < d then true else if c = d then lexLe cs ds else false

/-- Lexicographic order on strings by code point. -/
def strLeP (a b : String) : Prop := lexLe a.data b.data = true

instance : DecidableRel strLeP :=
  fun a b => inferInstanceAs (Decidable (lexLe a.data b.data = true))

/-- Python sorted on a list of names (orchestrator.py line 75): a stable
sort by the lexicographic order; any stable sort agrees with it, and on
the duplicate-free name lists sorted here stability is vacuous. -/
def sortNames (l : List String) : List String :=
  l.insertionSort strLeP

/-- The while-loop of orchestrator.py lines 74-84, with explicit fuel.
Each iteration consumes a nonempty frontier whose members never reappear,
so modules.length + 1 units of fuel always reach the empty frontier.
Returns the accumulated levels and the seen counter. -/
def kahnLoop (children : String → List String) :
    Nat → List String → (String → Int) → Nat → List (List String) →
    List (List String) × Nat
  | 0, _, _, seen, levels => (levels, seen)
  | fuel + 1, frontier, indeg, seen, levels =>
    if frontier.isEmpty then (levels, seen)
    else
      let level := sortNames frontier
      let st := processLevel children level indeg
      kahnLoop children fuel st.2 st.1 (seen + level.length) (levels ++ [level])

/-- The initial frontier (orchestrator.py line 71): the names with
in-degree zero, in dict (= module insertion) order. -/
def initFrontier (modules : List ModuleSpec) : List String :=
  (modules.filter (fun m => indeg0 modules m.name == 0)).map (fun m => m.name)

/-- PipelineOrchestrator._topological_levels (orchestrator.py lines
54-88): validate the dependency references, run Kahn's algorithm by
levels, and fail when the processed count shows a cycle. -/
def topologicalLevels (modules : List ModuleSpec) :
    Except ConfigError (List (List String)) :=
  match firstUnknown modules with
  | some md => .error (.unknownDependency md.1 md.2)
  | none =>
    let st := kahnLoop (childrenOf modules) (modules.length + 1)
      (initFrontier modules) (indeg0 modules) 0 []
    if st.2 = modules.length then .ok st.1 else .error .cycle

/-- A no-op line callback (the default stdout callback fallback,
orchestrator.py line 49). -/
def noopCb : String → Except String Unit := fun _ => .ok ()

/-- PipelineOrchestrator state after a successful __init__
(orchestrator.py lines 34-52). -/
structure PipelineOrchestrator where
  _modules : List ModuleSpec
  _concurrency : Int
  _default_stdout_cb : String → Except String Unit
  _default_stderr_cb : Option (String → Except String Unit)
  _levels : List (List String)
  _fail_fast : Bool

/-- PipelineOrchestrator.__init__ (orchestrator.py lines 34-52): reject a
non-positive concurrency, then duplicate names (the name-keyed dict is
shorter than the module list), then compute the levels, which also rejects
unknown dependencies and cycles. All configuration errors are raised here,
synchronously, before an orchestrator value exists. -/
def PipelineOrchestrator.make (modules : List ModuleSpec) (concurrency : Int)
    (default_stdout_cb : Option (String → Except String Unit))
    (default_stderr_cb : Option (String → Except String Unit))
    (fail_fast : Bool) : Except ConfigError PipelineOrchestrator :=
  if concurrency < 1 then .error .nonPositiveConcurrency
  else if (modules.map (fun m => m.name)).dedup.length ≠ modules.length then
    .error .duplicateNames
  else
    match topologicalLevels modules with
    | .error e => .error e
    | .ok levels =>
      .ok { _modules := modules, _concurrency := concurrency,
            _default_stdout_cb := default_stdout_cb.getD noopCb,
            _default_stderr_cb := default_stderr_cb,
            _levels := levels, _fail_fast := fail_fast }

/-- The result of one module execution as driven by _run_one
(orchestrator.py lines 90-109): execute is called with the spec's command,
the spec's callback or the orchestrator default, the spec's timeout and
the spec's check flag. -/
def PipelineOrchestrator.runOne (o : PipelineOrchestrator)
    (beh : String → ProcBehavior) (spec : ModuleSpec) : Except ExecError Int :=
  (executeTrace spec.cmd (spec.stdout_cb.getD o._default_stdout_cb)
    spec.timeout.isSome spec.check false (beh spec.name)).result

/-- Lookup in the name-keyed module dict. -/
def findSpec (modules : List ModuleSpec) (n : String) : Option ModuleSpec :=
  modules.find? (fun m => m.name == n)

/-- The outcome of the module registered under n, when one is registered. -/
def moduleOutcome (o : PipelineOrchestrator) (beh : String → ProcBehavior)
    (n : String) : Option (Except ExecError Int) :=
  (findSpec o._modules n).map (o.runOne beh)

/-- True when the module registered under n fails (raises out of
_run_one). -/
def moduleFailsB (o : PipelineOrchestrator) (beh : String → ProcBehavior)
    (n : String) : Bool :=
  match moduleOutcome o beh n with
  | some (.error _) => true
  | _ => false

/-- The (name, exit code) pairs the modules of a level write into the
results dict (orchestrator.py line 109), in level order. -/
def levelSuccesses (o : PipelineOrchestrator) (beh : String → ProcBehavior)
    (lv : List String) : List (String × Int) :=
  lv.filterMap (fun n =>
    match moduleOutcome o beh n with
    | some (.ok rc) => some (n, rc)
    | _ => none)

/-- The (name, error) pairs of the failing modules of a level
(orchestrator.py lines 146-149), in level order. -/
def levelFailures (o : PipelineOrchestrator) (beh : String → ProcBehavior)
    (lv : List String) : List (String × ExecError) :=
  lv.filterMap (fun n =>
    match moduleOutcome o beh n with
    | some (.error e) => some (n, e)
    | _ => none)

/-- The mutable state of one run() invocation: the results dict, the
failures dict, and (ghost, for specification) the names of the modules
whose tasks were started. -/
structure RunState where
  results : List (String × Int)
  failures : List (String × ExecError)
  attempted : List String
deriving Repr

/-- The epilogue of run() (orchestrator.py lines 151-154): raise
OrchestrationError when failures were collected in non-fail-fast mode,
otherwise return the results dict. -/
def finishRun (fail_fast : Bool) (st : RunState) :
    Except RunError (List (String × Int)) :=
  if fail_fast = false ∧ st.failures ≠ [] then .error (.orchestration st.failures)
  else .ok st.results

/-- The level loop of run() (orchestrator.py lines 122-154). In fail-fast
mode a level with a failure makes the TaskGroup raise, aborting the whole
loop with the level's errors; in aggregate mode the failures are recorded
and the loop continues. The returned pair is the final internal state and
the value run() returns or raises. -/
def runAux (o : PipelineOrchestrator) (beh : String → ProcBehavior) :
    List (List String) → RunState →
    RunState × Except RunError (List (String × Int))
  | [], st => (st, finishRun o._fail_fast st)
  | lv :: rest, st =>
    if o._fail_fast ∧ st.failures ≠ [] then (st, finishRun o._fail_fast st)
    else if o._fail_fast then
      let st' : RunState :=
        { results := st.results ++ levelSuccesses o beh lv,
          failures := st.failures,
          attempted := st.attempted ++ lv }
      if levelFailures o beh lv ≠ [] then
        (st', .error (.failFast (levelFailures o beh lv)))
      else runAux o beh rest st'
    else
      let st' : RunState :=
        { results := st.results ++ levelSuccesses o beh lv,
          failures := st.failures ++ levelFailures o beh lv,
          attempted := st.attempted ++ lv }
      runAux o beh rest st'

/-- PipelineOrchestrator.run (orchestrator.py lines 111-154): the value
returned or raised. -/
def PipelineOrchestrator.run (o : PipelineOrchestrator)
    (beh : String → ProcBehavior) : Except RunError (List (String × Int)) :=
  (runAux o beh o._levels { results := [], failures := [], attempted := [] }).2

/-- The final internal state of the run loop (the results and failures
dicts at orchestrator.py line 151, plus the attempted ghost). -/
def PipelineOrchestrator.runState (o : PipelineOrchestrator)
    (beh : String → ProcBehavior) : RunState :=
  (runAux o beh o._levels { results := [], failures := [], attempted := [] }).1

/-- State of the semaphore discipline of run()/_run_one: levels not yet
released, tasks created but not yet past the semaphore, tasks inside the
async-with block (a live ProcessRunner each), finished tasks, and the
semaphore's free count. -/
structure SemState where
  queued : List (List String)
  waiting : List String
  active : List String
  done : List String
  avail : Nat
deriving Repr

/-- The start of a run (orchestrator.py line 118): the semaphore is
created once with value C, before any level runs. -/
def initSemState (C : Nat) (levels : List (List String)) : SemState :=
  { queued := levels, waiting := [], active := [], done := [], avail := C }

/-- Interleaving semantics of the semaphore discipline:
- releaseLevel: run() creates the next level's tasks only after the
  previous level's TaskGroup/gather finished (orchestrator.py lines
  122-149); the semaphore is carried over unchanged, never reset;
- acquire: a task enters async-with sem before constructing its
  ProcessRunner and spawning (orchestrator.py lines 96-99), which needs a
  free slot;
- finish: leaving the async-with block releases the slot unconditionally,
  whether _run_one returned, raised, or was cancelled. -/
inductive SemStep : SemState → SemState → Prop where
  | releaseLevel (lv : List String) (rest : List (List String))
      (d : List String) (c : Nat) :
      SemStep { queued := lv :: rest, waiting := [], active := [], done := d, avail := c }
        { queued := rest, waiting := lv, active := [], done := d, avail := c }
  | acquire (q : List (List String)) (w₁ w₂ : List String) (n : String)
      (a d : List String) (c : Nat) :
      SemStep { queued := q, waiting := w₁ ++ n :: w₂, active := a, done := d, avail := c + 1 }
        { queued := q, waiting := w₁ ++ w₂, active := n :: a, done := d, avail := c }
  | finish (q : List (List String)) (w : List String) (a₁ a₂ : List String)
      (n : String) (d : List String) (c : Nat) :
      SemStep { queued := q, waiting := w, active := a₁ ++ n :: a₂, done := d, avail := c }
        { queued := q, waiting := w, active := a₁ ++ a₂, done := n :: d, avail := c + 1 }

/-- States a run can reach from its initial state. -/
def SemReachable (C : Nat) (levels : List (List String)) (s : SemState) : Prop :=
  Relation.ReflTransGen SemStep (initSemState C levels) s

/-- A parent environment with a PATH entry and nothing else. -/
def parentEnvC1 : Env := fun k => if k == "PATH" then some "/usr/bin" else none

/-- A module declaring one env override. -/
def specC1 : ModuleSpec :=
  { name := "m1", cmd := ["run"], path := "/mod", env := some [("FOO", "bar")],
    timeout := none, check := true, deps := [], stdout_cb := none, stderr_cb := none }

/-- A process that exits 0 promptly. -/
def behOk : ProcBehavior :=
  { rc := 0, exceedsTimeout := false, exitedBeforeCleanup := false,
    exitsOnTerm := true, outputLines := [] }

/-- A process that exits 1 promptly. -/
def behFail1 : ProcBehavior :=
  { rc := 1, exceedsTimeout := false, exitedBeforeCleanup := false,
    exitsOnTerm := true, outputLines := [] }

/-- A process that outruns its timeout and ignores the graceful
termination signal. -/
def behHang : ProcBehavior :=
  { rc := 0, exceedsTimeout := true, exitedBeforeCleanup := false,
    exitsOnTerm := false, outputLines := ["partial output"] }

/-- Sample module A: no deps. -/
def sampleSpecA : ModuleSpec := ModuleSpec.mkDefault "A" ["bin-a"] "/a"

/-- Sample module B: no deps. -/
def sampleSpecB : ModuleSpec := ModuleSpec.mkDefault "B" ["bin-b"] "/b"

/-- Sample module C, depending on A and B. -/
def sampleSpecC : ModuleSpec :=
  { ModuleSpec.mkDefault "C" ["bin-c"] "/c" with deps := ["A", "B"] }

/-- The sample three-module graph: A, B independent, C depends on both. -/
def sampleModules : List ModuleSpec := [sampleSpecA, sampleSpecB, sampleSpecC]

/-- Behaviour where module B exits 1 and everything else exits 0. -/
def sampleBehBFails : String → ProcBehavior :=
  fun n => if n == "B" then behFail1 else behOk

/-- The levels of the sample graph. -/
def sampleLevels : List (List String) := [["A", "B"], ["C"]]

/-- The orchestrator built over the sample graph in aggregate mode. -/
def sampleOrchAgg : PipelineOrchestrator :=
  { _modules := sampleModules, _concurrency := 2,
    _default_stdout_cb := noopCb, _default_stderr_cb := none,
    _levels := sampleLevels, _fail_fast := false }

/-- The orchestrator built over the sample graph in fail-fast mode. -/
def sampleOrchFF : PipelineOrchestrator :=
  { _modules := sampleModules, _concurrency := 2,
    _default_stdout_cb := noopCb, _default_stderr_cb := none,
    _levels := sampleLevels, _fail_fast := true }

/-- A ranking function witnessing acyclicity of the sample graph. -/
def sampleRank : String → Nat := fun n => if n == "C" then 1 else 0

/-- A callback that always raises. -/
def raisingCb : String → Except String Unit := fun _ => .error "boom"

/-- A mid-run semaphore state: module A holds the single slot, B waits. -/
def semWitnessState : SemState :=
  { queued := [], waiting := ["B"], active := ["A"], done := [], avail := 0 }

/-- Invariant of the while-loop of _topological_levels (orchestrator.py
lines 74-84), stated over the accumulated levels, the frontier about to
be processed, the in-degree map and the seen counter. Decrements for the
current frontier have not happened yet, so the in-degree of a module
counts its dependencies not yet placed in a level. -/
structure KahnInv (modules : List ModuleSpec) (levels : List (List String))
    (frontier : List String) (indeg : String → Int) (seen : Nat) : Prop where
  nodup : (levels.flatten ++ frontier).Nodup
  subset : ∀ n ∈ levels.flatten ++ frontier, n ∈ modules.map (fun m => m.name)
  indeg_mem : ∀ n ∈ modules.map (fun m => m.name),
    indeg n = ((depsOf modules n).countP (fun d => decide (d ∉ levels.flatten)) : Int)
  indeg_other : ∀ n, n ∉ modules.map (fun m => m.name) → indeg n = 0
  frontier_iff : ∀ n ∈ modules.map (fun m => m.name),
    (n ∈ frontier ↔ n ∉ levels.flatten ∧ ∀ d ∈ depsOf modules n, d ∈ levels.flatten)
  seen_eq : seen = levels.flatten.length
  lvsorted : ∀ lv ∈ levels, List.Pairwise strLeP lv
  closed : ∀ p lv s, levels = p ++ lv :: s →
    ∀ n ∈ lv, ∀ d ∈ depsOf modules n, d ∈ p.flatten

/-- The index of the level containing a name (the number of levels before
it); used to read an acyclicity ranking off a successful levelization. -/
def rankIn (L : List (List String)) (n : String) : Nat :=
  L.findIdx (fun lv => decide (n ∈ lv))

/-- C1: the spec's env overrides never reach the spawned child. _run_one
builds the executor's env as the parent overlaid with spec.env, but
execute rebuilds the child environment from its own env parameter, which
_run_one leaves unset, so the child runs with the parent environment
unchanged: at the concrete input, the override FOO=bar is present in the
executor's stored env yet absent from the child's environment. -/
theorem spec_env_overrides_dropped :
    (∀ (parentEnv : Env) (spec : ModuleSpec) (k : String),
      runOneSpawnEnv parentEnv spec k = parentEnv k) ∧
    runOneSpawnEnv parentEnvC1 specC1 "FOO" = none ∧
    buildEnv parentEnvC1 specC1.env "FOO" = some "bar" ∧
    (ModuleExecutor.make parentEnvC1 specC1.path (specEnvArg specC1)).env "FOO" = some "bar" ∧
    runOneSpawnEnv parentEnvC1 specC1 "PATH" = some "/usr/bin" :=
  ⟨fun _ _ _ => rfl, rfl, rfl, rfl, rfl⟩

/-- C6: when execute is interrupted by a timeout or an external
cancellation while the process still runs, the cleanup path first sends
the graceful termination signal to the process group, escalates to an
unconditional kill exactly when the process does not exit within the
grace period, reaps the process, cancels and drains the reader tasks, and
re-raises the original condition; the outcome is never a normal return
and never a ProcessError. -/
theorem execute_interrupt_cleanup
    (cmd : List String) (cb : String → Except String Unit)
    (timeoutSet check cancelled : Bool) (beh : ProcBehavior)
    (hint : cancelled = true ∨ (timeoutSet = true ∧ beh.exceedsTimeout = true))
    (hlive : beh.exitedBeforeCleanup = false) :
    (executeTrace cmd cb timeoutSet check cancelled beh).signalsSent =
      (if beh.exitsOnTerm then [Sig.sigterm] else [Sig.sigterm, Sig.sigkill]) ∧
    (executeTrace cmd cb timeoutSet check cancelled beh).procReaped = true ∧
    (executeTrace cmd cb timeoutSet check cancelled beh).tasksDrained = true ∧
    (executeTrace cmd cb timeoutSet check cancelled beh).result =
      .error (if cancelled then ExecError.cancelled else ExecError.timeoutError) ∧
    (∀ rc : Int, (executeTrace cmd cb timeoutSet check cancelled beh).result ≠ .ok rc) ∧
    (∀ (c : List String) (r : Int),
      (executeTrace cmd cb timeoutSet check cancelled beh).result ≠
        .error (.processError c r)) := by
  have hcond : (cancelled || (timeoutSet && beh.exceedsTimeout)) = true := by
    rcases hint with h | ⟨h1, h2⟩
    · simp [h]
    · simp [h1, h2]
  refine ⟨?_, ?_, ?_, ?_, ?_, ?_⟩ <;>
    simp only [executeTrace, hcond, hlive, if_true, Bool.false_eq_true, if_false,
      cond_eq_if] <;>
    cases cancelled <;> simp

/-- C6 witness: a process that outruns its timeout and ignores SIGTERM is
killed, reaped, drained, and the timeout is re-raised. -/
theorem execute_interrupt_cleanup_witness :
    (true = true ∨ (true = true ∧ behHang.exceedsTimeout = true)) ∧
    behHang.exitedBeforeCleanup = false ∧
    (executeTrace ["sleep"] noopCb true true false behHang).signalsSent =
      [Sig.sigterm, Sig.sigkill] ∧
    (executeTrace ["sleep"] noopCb true true false behHang).result =
      .error ExecError.timeoutError := by
  refine ⟨Or.inr ⟨rfl, rfl⟩, rfl, ?_, ?_⟩
  · have h := execute_interrupt_cleanup ["sleep"] noopCb true true false behHang
      (Or.inr ⟨rfl, rfl⟩) rfl
    simpa [behHang] using h.1
  · have h := execute_interrupt_cleanup ["sleep"] noopCb true true false behHang
      (Or.inr ⟨rfl, rfl⟩) rfl
    simpa using h.2.2.2.1

/-- C8: a raising line callback is caught inside dispatch and logged, the
stream-reading loop still dispatches every line, and the
returned/raised result of execute and its signalling behaviour are
unchanged by what any callback does. -/
theorem callback_error_isolated :
    (∀ (cb : String → Except String Unit) (text : String) (e : String),
      cb text = .error e → dispatchModel cb text = .errorLogged) ∧
    (∀ (cb : String → Except String Unit) (lines : List String),
      (readStreamModel cb lines).length = lines.length) ∧
    (∀ (cmd : List String) (cb cb' : String → Except String Unit)
      (timeoutSet check cancelled : Bool) (beh : ProcBehavior),
      (executeTrace cmd cb timeoutSet check cancelled beh).result =
        (executeTrace cmd cb' timeoutSet check cancelled beh).result ∧
      (executeTrace cmd cb timeoutSet check cancelled beh).signalsSent =
        (executeTrace cmd cb' timeoutSet check cancelled beh).signalsSent) := by
  refine ⟨?_, ?_, ?_⟩
  · intro cb text e h
    simp [dispatchModel, h]
  · intro cb lines
    simp [readStreamModel]
  · intro cmd cb cb' timeoutSet check cancelled beh
    obtain ⟨rc, et, ebc, eot, ol⟩ := beh
    cases cancelled <;> cases timeoutSet <;> cases et <;> cases ebc <;>
      by_cases h : (check && (rc != 0)) = true <;>
      simp [executeTrace, h]

/-- C8 witness: a callback that raises on every line is logged-and-
swallowed and does not change the result of execute. -/
theorem callback_error_isolated_witness :
    raisingCb "line" = .error "boom" ∧
    dispatchModel raisingCb "line" = .errorLogged ∧
    (executeTrace ["bin-a"] raisingCb false true false behFail1).result =
      (executeTrace ["bin-a"] noopCb false true false behFail1).result := by
  refine ⟨rfl, ?_, ?_⟩
  · exact callback_error_isolated.1 raisingCb "line" "boom" rfl
  · exact (callback_error_isolated.2.2 ["bin-a"] raisingCb noopCb false true false behFail1).1

/-- C10: a ModuleSpec built without an explicit check argument has
check = true, while execute's own check parameter defaults to false; the
orchestrator forwards the spec's flag, so under the defaults a non-zero
exit raises ProcessError out of _run_one even though a direct execute
call with its own default would return the code. -/
theorem default_check_forwarding :
    (∀ (n : String) (cmd : List String) (p : String),
      (ModuleSpec.mkDefault n cmd p).check = true) ∧
    executeDefaultCheck = false ∧
    (∀ (o : PipelineOrchestrator) (beh : String → ProcBehavior) (spec : ModuleSpec),
      spec.check = true → (beh spec.name).exceedsTimeout = false →
      (beh spec.name).rc ≠ 0 →
      o.runOne beh spec = .error (.processError spec.cmd (beh spec.name).rc) ∧
      (executeTrace spec.cmd noopCb spec.timeout.isSome executeDefaultCheck false
        (beh spec.name)).result = .ok (beh spec.name).rc) := by
  refine ⟨fun _ _ _ => rfl, rfl, ?_⟩
  intro o beh spec h1 h2 h3
  constructor
  · simp [PipelineOrchestrator.runOne, executeTrace, h1, h2, bne_iff_ne, h3]
  · simp [executeTrace, executeDefaultCheck, h2]

/-- C10 witness: module B's default-check spec raises ProcessError on
exit code 1, while a direct execute call with the executor's default
check returns 1. -/
theorem default_check_forwarding_witness :
    sampleSpecB.check = true ∧
    (sampleBehBFails sampleSpecB.name).exceedsTimeout = false ∧
    (sampleBehBFails sampleSpecB.name).rc ≠ 0 ∧
    sampleOrchAgg.runOne sampleBehBFails sampleSpecB =
      .error (.processError ["bin-b"] 1) ∧
    (executeTrace ["bin-b"] noopCb false executeDefaultCheck false
      (sampleBehBFails sampleSpecB.name)).result = .ok 1 := by
  have h := (default_check_forwarding.2.2 sampleOrchAgg sampleBehBFails sampleSpecB
    rfl rfl (by decide))
  exact ⟨rfl, rfl, by decide, h.1, h.2⟩

/-- One SemStep preserves the balance between live ProcessRunners and free
semaphore slots. -/
theorem semStep_active_avail {C : Nat} {s s' : SemState} (h : SemStep s s')
    (hinv : s.active.length + s.avail = C) :
    s'.active.length + s'.avail = C := by
  cases h <;> simp_all [List.length_append] <;> omega

/-- C9: with a single counting semaphore of value C created once for the
whole run, acquired before a module's ProcessRunner is constructed and
released unconditionally when the module's execution leaves the
async-with block, every reachable state of a run has at most C modules
active, and the exact balance active + free = C holds throughout. -/
theorem semaphore_concurrency_bound (C : Nat) (hC : 1 ≤ C)
    (levels : List (List String)) (s : SemState)
    (h : SemReachable C levels s) :
    s.active.length + s.avail = C ∧ s.active.length ≤ C := by
  have hbal : s.active.length + s.avail = C := by
    induction h with
    | refl => simp [initSemState]
    | tail _ hstep ih => exact semStep_active_avail hstep ih
  exact ⟨hbal, by omega⟩

/-- C9 witness: with C = 1 and one level of two modules, the state where
A holds the slot and B waits is reachable and within the bound. -/
theorem semaphore_concurrency_bound_witness :
    1 ≤ 1 ∧ SemReachable 1 [["A", "B"]] semWitnessState ∧
    semWitnessState.active.length + semWitnessState.avail = 1 ∧
    semWitnessState.active.length ≤ 1 := by
  have hreach : SemReachable 1 [["A", "B"]] semWitnessState :=
    Relation.ReflTransGen.tail
      (Relation.ReflTransGen.tail Relation.ReflTransGen.refl
        (SemStep.releaseLevel ["A", "B"] [] [] 1))
      (SemStep.acquire [] [] ["B"] "A" [] [] 0)
  have h := semaphore_concurrency_bound 1 (le_refl 1) [["A", "B"]] semWitnessState hreach
  exact ⟨le_refl 1, hreach, h.1, h.2⟩

/-- Unfolding of lexLe on two nonempty lists. -/
theorem lexLe_cons_iff (c d : Char) (cs ds : List Char) :
    lexLe (c :: cs) (d :: ds) = true ↔ (c < d ∨ (c = d ∧ lexLe cs ds = true)) := by
  show (if c < d then true else if c = d then lexLe cs ds else false) = true ↔ _
  split_ifs with h1 h2
  · simp [h1]
  · simp [h1, h2]
  · simp [h1, h2]

/-- lexLe is total. -/
theorem lexLe_total : ∀ x y : List Char, lexLe x y = true ∨ lexLe y x = true := by
  intro x
  induction x with
  | nil => intro y; left; cases y <;> rfl
  | cons c cs ih =>
    intro y
    cases y with
    | nil => right; rfl
    | cons d ds =>
      rcases lt_trichotomy c d with h | h | h
      · left; rw [lexLe_cons_iff]; exact Or.inl h
      · subst h
        rcases ih ds with h' | h'
        · left; rw [lexLe_cons_iff]; exact Or.inr ⟨rfl, h'⟩
        · right; rw [lexLe_cons_iff]; exact Or.inr ⟨rfl, h'⟩
      · right; rw [lexLe_cons_iff]; exact Or.inl h

/-- lexLe is transitive. -/
theorem lexLe_trans : ∀ x y z : List Char,
    lexLe x y = true → lexLe y z = true → lexLe x z = true := by
  intro x
  induction x with
  | nil => intro y z _ _; cases z <;> rfl
  | cons c cs ih =>
    intro y z hxy hyz
    cases y with
    | nil => simp [lexLe] at hxy
    | cons d ds =>
      cases z with
      | nil => simp [lexLe] at hyz
      | cons e es =>
        rw [lexLe_cons_iff] at hxy hyz ⊢
        rcases hxy with h1 | ⟨h1, h1'⟩ <;> rcases hyz with h2 | ⟨h2, h2'⟩
        · exact Or.inl (lt_trans h1 h2)
        · exact Or.inl (h2 ▸ h1)
        · exact Or.inl (h1 ▸ h2)
        · exact Or.inr ⟨h1.trans h2, ih ds es h1' h2'⟩

/-- sortNames permutes its input. -/
theorem sortNames_perm (l : List String) : (sortNames l).Perm l :=
  List.perm_insertionSort strLeP l

/-- sortNames sorts by the lexicographic order. -/
theorem sortNames_sorted (l : List String) : List.Pairwise strLeP (sortNames l) := by
  have htot : IsTotal String strLeP := ⟨fun a b => lexLe_total a.data b.data⟩
  have htr : IsTrans String strLeP := ⟨fun a b c => lexLe_trans a.data b.data c.data⟩
  exact @List.sorted_insertionSort String strLeP _ htot htr l

/-- Under unique names, the dict lookup by a member's name finds it. -/
theorem find?_name_eq {modules : List ModuleSpec}
    (hnodup : (modules.map (fun m => m.name)).Nodup) {m : ModuleSpec}
    (hm : m ∈ modules) :
    modules.find? (fun x => x.name == m.name) = some m := by
  induction modules with
  | nil => cases hm
  | cons m0 rest ih =>
    simp only [List.map_cons, List.nodup_cons] at hnodup
    by_cases h : (m0.name == m.name) = true
    · have hname : m0.name = m.name := by simpa using h
      rcases List.mem_cons.mp hm with rfl | hmem
      · simp [List.find?]
      · exact absurd (hname ▸ List.mem_map.mpr ⟨m, hmem, rfl⟩) hnodup.1
    · rcases List.mem_cons.mp hm with rfl | hmem
      · simp at h
      · simp only [List.find?_cons, h]
        exact ih hnodup.2 hmem

/-- Under unique names, depsOf recovers a member's deps list. -/
theorem depsOf_eq {modules : List ModuleSpec}
    (hnodup : (modules.map (fun m => m.name)).Nodup) {m : ModuleSpec}
    (hm : m ∈ modules) : depsOf modules m.name = m.deps := by
  unfold depsOf
  rw [find?_name_eq hnodup hm]

/-- depsOf of an unregistered name is empty. -/
theorem depsOf_not_mem {modules : List ModuleSpec} {n : String}
    (hn : n ∉ modules.map (fun m => m.name)) : depsOf modules n = [] := by
  unfold depsOf
  rw [List.find?_eq_none.mpr]
  intro x hx hpx
  exact hn (List.mem_map.mpr ⟨x, hx, by simpa using hpx⟩)

/-- Counting occurrences in a constant map. -/
theorem count_map_const (l : List String) (x c : String) :
    ((l.map (fun _ => x)).count c) = if c = x then l.length else 0 := by
  induction l with
  | nil => simp
  | cons a l ih =>
    simp only [List.map_cons, List.count_cons, ih]
    by_cases h : c = x
    · simp [h]
    · have hbeq : (c == x) = false := beq_eq_false_iff_ne.mpr h
      simp [h, hbeq]
      exact Ne.symm h

/-- The multiplicity of module c among the dependents of d equals the
multiplicity of d among c's deps. -/
theorem count_childrenOf {modules : List ModuleSpec}
    (hnodup : (modules.map (fun m => m.name)).Nodup) (d c : String) :
    ((childrenOf modules d).count c) = ((depsOf modules c).count d) := by
  induction modules with
  | nil => simp [childrenOf, depsOf]
  | cons m rest ih =>
    simp only [List.map_cons, List.nodup_cons] at hnodup
    have hchil : childrenOf (m :: rest) d =
        ((m.deps.filter (fun x => x == d)).map (fun _ => m.name)) ++ childrenOf rest d := by
      simp [childrenOf]
    rw [hchil, List.count_append, count_map_const]
    by_cases hc : c = m.name
    · have hdeps : depsOf (m :: rest) c = m.deps := by
        unfold depsOf
        have hbeq : (m.name == c) = true := beq_iff_eq.mpr hc.symm
        simp [List.find?_cons, hbeq]
      have hrest : depsOf rest c = [] := depsOf_not_mem (by rw [hc]; exact hnodup.1)
      rw [hdeps, ih hnodup.2, hrest]
      simp [hc, List.count, List.countP_eq_length_filter]
    · have hdeps : depsOf (m :: rest) c = depsOf rest c := by
        unfold depsOf
        have hbeq : (m.name == c) = false :=
          beq_eq_false_iff_ne.mpr (fun h => hc h.symm)
        simp [List.find?_cons, hbeq]
      rw [hdeps, ih hnodup.2]
      simp [hc]

/-- Every dependent listed by childrenOf is a registered module name. -/
theorem childrenOf_subset {modules : List ModuleSpec} {d c : String}
    (h : c ∈ childrenOf modules d) : c ∈ modules.map (fun m => m.name) := by
  simp only [childrenOf, List.mem_flatMap, List.mem_map] at h
  obtain ⟨m, hm, _, _, rfl⟩ := h
  exact List.mem_map.mpr ⟨m, hm, rfl⟩

/-- Membership count for a cons cell of the membership predicate. -/
theorem countP_mem_cons (l : List String) (a : String) (rest : List String)
    (ha : a ∉ rest) :
    l.countP (fun d => decide (d ∈ a :: rest)) =
      l.count a + l.countP (fun d => decide (d ∈ rest)) := by
  induction l with
  | nil => simp
  | cons x l ih =>
    simp only [List.countP_cons, List.count_cons, ih]
    by_cases h1 : x = a
    · subst h1
      simp [List.mem_cons, ha]
      omega
    · have hbeq : (x == a) = false := beq_eq_false_iff_ne.mpr h1
      simp only [List.mem_cons, h1, false_or, hbeq]
      by_cases h2 : x ∈ rest <;> simp [h2] <;> omega

/-- Summing per-name counts over a duplicate-free list equals counting
membership. -/
theorem sum_counts_eq_countP {level : List String} (hl : level.Nodup)
    (l : List String) :
    ((level.map (fun n => l.count n)).sum) =
      l.countP (fun d => decide (d ∈ level)) := by
  induction level with
  | nil => simp
  | cons a rest ih =>
    simp only [List.nodup_cons] at hl
    simp only [List.map_cons, List.sum_cons]
    rw [ih hl.2, countP_mem_cons l a rest hl.1]

/-- Splitting the not-yet-levelled count at a level disjoint from the
already-levelled names. -/
theorem countP_split (l flat lv : List String)
    (hdisj : ∀ d, d ∈ lv → d ∉ flat) :
    l.countP (fun d => decide (d ∉ flat)) =
      l.countP (fun d => decide (d ∉ flat ++ lv)) +
        l.countP (fun d => decide (d ∈ lv)) := by
  induction l with
  | nil => simp
  | cons x l ih =>
    simp only [List.countP_cons, ih]
    by_cases h1 : x ∈ lv
    · have h2 : x ∉ flat := hdisj x h1
      simp [List.mem_append, h1, h2]
      omega
    · by_cases h2 : x ∈ flat <;> simp [List.mem_append, h1, h2] <;> omega

/-- When p implies q on members and their counts agree, q implies p on
members. -/
theorem countP_eq_imp_pointwise {l : List String} {p q : String → Bool}
    (himp : ∀ a ∈ l, p a = true → q a = true)
    (heq : l.countP q = l.countP p) :
    ∀ a ∈ l, q a = true → p a = true := by
  induction l with
  | nil => simp
  | cons x l ih =>
    have hx := himp x (List.mem_cons_self x l)
    have hrest : ∀ a ∈ l, p a = true → q a = true :=
      fun a ha => himp a (List.mem_cons_of_mem x ha)
    have hle : l.countP p ≤ l.countP q := List.countP_mono_left hrest
    simp only [List.countP_cons] at heq
    intro a ha hqa
    rcases List.mem_cons.mp ha with rfl | hmem
    · by_cases hp : p a = true
      · exact hp
      · exfalso
        rw [if_pos hqa, if_neg hp] at heq
        omega
    · have heq' : l.countP q = l.countP p := by
        by_cases hp : p x = true
        · rw [if_pos hp, if_pos (hx hp)] at heq
          omega
        · by_cases hq : q x = true
          · rw [if_pos hq, if_neg hp] at heq
            omega
          · rw [if_neg hq, if_neg hp] at heq
            omega
      exact ih hrest heq' a hmem hqa

/-- filterMap length as a count of productive inputs. -/
theorem length_filterMap_countP {α β : Type} (f : α → Option β) (l : List α) :
    (l.filterMap f).length = l.countP (fun a => (f a).isSome) := by
  induction l with
  | nil => simp
  | cons x l ih =>
    cases h : f x <;>
      simp [List.filterMap_cons, h, List.countP_cons, ih]

/-- Unfolding of one stepChild application. -/
theorem stepChild_eq (st : (String → Int) × List String) (c : String) :
    stepChild st c =
      ((fun x => if x == c then st.1 x - 1 else st.1 x),
        if st.1 c - 1 == 0 then st.2 ++ [c] else st.2) := by
  unfold stepChild
  simp

/-- Final state of the decrement fold: the in-degrees drop by the edge
multiplicities, and a node is appended to the new frontier exactly once,
precisely when its in-degree passes through zero. -/
theorem foldl_stepChild (E : List String) :
    ∀ (indeg : String → Int) (nf : List String),
      (∀ x, (E.foldl stepChild (indeg, nf)).1 x = indeg x - (E.count x : Int)) ∧
      (∀ x, (E.foldl stepChild (indeg, nf)).2.count x =
        nf.count x +
          (if 0 < indeg x ∧ indeg x ≤ (E.count x : Int) then 1 else 0)) := by
  induction E with
  | nil =>
    intro indeg nf
    refine ⟨fun x => by simp, fun x => ?_⟩
    have hcond : ¬(0 < indeg x ∧ indeg x ≤ ((List.count x ([] : List String) : Nat) : Int)) := by
      simp
    rw [if_neg hcond]
    simp
  | cons c E ih =>
    intro indeg nf
    rw [List.foldl_cons, stepChild_eq]
    obtain ⟨ih1, ih2⟩ := ih (fun x => if x == c then indeg x - 1 else indeg x)
      (if indeg c - 1 == 0 then nf ++ [c] else nf)
    have hind : ∀ y, (if (y == c) then indeg y - 1 else indeg y) =
        if y = c then indeg y - 1 else indeg y := by
      intro y
      by_cases h : y = c
      · simp [h]
      · simp [beq_eq_false_iff_ne.mpr h, h]
    have hcount : ∀ x : String, ((c :: E).count x : Int) =
        (E.count x : Int) + (if x = c then 1 else 0) := by
      intro x
      rw [List.count_cons]
      by_cases hx : x = c
      · subst hx
        push_cast
        simp
      · push_cast [beq_eq_false_iff_ne.mpr hx]
        simp [hx]
        exact fun h => hx h.symm
    have hnfcount : ∀ x : String, (if indeg c - 1 == 0 then nf ++ [c] else nf).count x =
        nf.count x + (if (indeg c = 1 ∧ x = c) then 1 else 0) := by
      intro x
      split_ifs with h1 h2
      · rcases h2 with ⟨-, rfl⟩
        rw [List.count_append]
        simp
      · have hx : ¬x = c := by
          intro hh
          exact h2 ⟨by have := beq_iff_eq.mp h1; omega, hh⟩
        rw [List.count_append, List.count_cons]
        simp [beq_eq_false_iff_ne.mpr hx]
        exact fun h => hx h.symm
      · exact absurd (beq_iff_eq.mpr (by omega : indeg c - 1 = 0)) (by simp [h1])
      · simp
    constructor
    · intro x
      rw [ih1 x]
      simp only [hind x, hcount x]
      by_cases hx : x = c
      · rw [if_pos hx, if_pos hx]
        omega
      · rw [if_neg hx, if_neg hx]
        omega
    · intro x
      rw [ih2 x, hnfcount x, hcount x]
      simp only [hind x]
      by_cases hx : x = c
      · subst hx
        simp only [if_pos rfl, and_true]
        split_ifs <;> omega
      · simp only [if_neg hx]
        have hfalse : ¬(indeg c = 1 ∧ x = c) := fun h => hx h.2
        rw [if_neg hfalse]
        split_ifs <;> omega

/-- The in-degree map after processing a level. -/
theorem processLevel_indeg (ch : String → List String) (level : List String)
    (indeg : String → Int) (x : String) :
    (processLevel ch level indeg).1 x =
      indeg x - ((level.flatMap ch).count x : Int) :=
  (foldl_stepChild (level.flatMap ch) indeg []).1 x

/-- The new frontier's multiplicities after processing a level. -/
theorem processLevel_count (ch : String → List String) (level : List String)
    (indeg : String → Int) (x : String) :
    (processLevel ch level indeg).2.count x =
      (if 0 < indeg x ∧ indeg x ≤ ((level.flatMap ch).count x : Int) then 1 else 0) := by
  have h := (foldl_stepChild (level.flatMap ch) indeg []).2 x
  simpa using h

/-- Membership in the new frontier. -/
theorem processLevel_mem (ch : String → List String) (level : List String)
    (indeg : String → Int) (x : String) :
    x ∈ (processLevel ch level indeg).2 ↔
      (0 < indeg x ∧ indeg x ≤ ((level.flatMap ch).count x : Int)) := by
  rw [← List.count_pos_iff, processLevel_count]
  split_ifs with h <;> simp [h]

/-- The new frontier has no duplicates. -/
theorem processLevel_nodup (ch : String → List String) (level : List String)
    (indeg : String → Int) :
    (processLevel ch level indeg).2.Nodup := by
  rw [List.nodup_iff_count_le_one]
  intro a
  rw [processLevel_count]
  split_ifs <;> omega

/-- Edge multiplicities into c from a duplicate-free level. -/
theorem count_flatMap_childrenOf {modules : List ModuleSpec}
    (hnodup : (modules.map (fun m => m.name)).Nodup) {level : List String}
    (hlv : level.Nodup) (c : String) :
    ((level.flatMap (childrenOf modules)).count c) =
      (depsOf modules c).countP (fun d => decide (d ∈ level)) := by
  rw [List.count_flatMap]
  have hmap : (level.map (List.count c ∘ fun n => childrenOf modules n)) =
      level.map (fun n => (depsOf modules c).count n) := by
    apply List.map_congr_left
    intro n _
    exact count_childrenOf hnodup n c
  rw [hmap, sum_counts_eq_countP hlv]

/-- Decomposing a decomposition of a snoc list. -/
theorem snoc_eq_append_cons {α : Type} {xs : List α} {x : α} {p : List α}
    {L : α} {s : List α} (h : xs ++ [x] = p ++ L :: s) :
    (∃ s', xs = p ++ L :: s') ∨ (p = xs ∧ L = x ∧ s = []) := by
  rcases List.append_eq_append_iff.mp h with ⟨a, hp, hx⟩ | ⟨c, hxs, hls⟩
  · cases a with
    | nil =>
      simp only [List.nil_append] at hx
      injection hx with h1 h2
      right
      exact ⟨by simpa using hp, h1.symm, h2.symm⟩
    | cons y a' =>
      exfalso
      have := congrArg List.length hx
      simp [List.length_append] at this
  · cases c with
    | nil =>
      simp only [List.append_nil] at hxs
      simp only [List.nil_append] at hls
      injection hls with h1 h2
      right
      exact ⟨hxs.symm, h1, h2⟩
    | cons L' c' =>
      left
      injection hls with h1 h2
      exact ⟨c', by rw [hxs, h1]⟩

/-- Dependencies of already-levelled modules are already levelled. -/
theorem closed_flatten {modules : List ModuleSpec} {levels : List (List String)}
    (hclosed : ∀ p lv s, levels = p ++ lv :: s →
      ∀ n ∈ lv, ∀ d ∈ depsOf modules n, d ∈ p.flatten)
    {n : String} (hn : n ∈ levels.flatten) :
    ∀ d ∈ depsOf modules n, d ∈ levels.flatten := by
  intro d hd
  rcases List.mem_flatten.mp hn with ⟨lv, hlv, hnlv⟩
  rcases List.append_of_mem hlv with ⟨p, s, rfl⟩
  have hp := hclosed p lv s rfl n hnlv d hd
  rw [List.flatten_append]
  exact List.mem_append.mpr (Or.inl hp)

/-- The invariant holds at loop entry. -/
theorem kahnInv_init (modules : List ModuleSpec)
    (hnodup : (modules.map (fun m => m.name)).Nodup) :
    KahnInv modules [] (initFrontier modules) (indeg0 modules) 0 := by
  refine ⟨?_, ?_, ?_, ?_, ?_, ?_, ?_, ?_⟩
  · have hsub : (initFrontier modules).Sublist (modules.map (fun m => m.name)) := by
      unfold initFrontier
      exact (List.filter_sublist modules).map (fun m => m.name)
    simpa using hsub.nodup hnodup
  · intro n hn
    simp only [List.flatten_nil, List.nil_append] at hn
    rcases List.mem_map.mp hn with ⟨m, hm, rfl⟩
    exact List.mem_map.mpr ⟨m, (List.mem_filter.mp hm).1, rfl⟩
  · intro n _
    simp [indeg0]
  · intro n hn
    simp [indeg0, depsOf_not_mem hn]
  · intro n hn
    rcases List.mem_map.mp hn with ⟨m, hm, rfl⟩
    constructor
    · intro hf
      rcases List.mem_map.mp hf with ⟨m', hm', heq⟩
      have hcond := (List.mem_filter.mp hm').2
      have hdeps : depsOf modules m.name = [] := by
        rw [← heq]
        have hzero : indeg0 modules m'.name = 0 := by simpa using hcond
        simpa [indeg0, List.length_eq_zero] using hzero
      refine ⟨by simp, ?_⟩
      intro d hd
      rw [hdeps] at hd
      cases hd
    · rintro ⟨-, hdeps⟩
      have hdnil : depsOf modules m.name = [] := by
        rcases h : depsOf modules m.name with _ | ⟨d, ds⟩
        · rfl
        · exfalso
          have := hdeps d (by rw [h]; exact List.mem_cons_self d ds)
          simp at this
      refine List.mem_map.mpr ⟨m, List.mem_filter.mpr ⟨hm, ?_⟩, rfl⟩
      simp [indeg0, hdnil]
  · simp
  · intro lv hlv
    cases hlv
  · intro p lv s h n hn d hd
    exfalso
    have := congrArg List.length h
    simp [List.length_append] at this
    omega

/-- One iteration of the while-loop preserves the invariant: the sorted
frontier becomes the next level, in-degrees drop to count only
dependencies outside the new prefix, and the new frontier is exactly the
set of unlevelled modules whose dependencies are now all levelled. -/
theorem kahnInv_step {modules : List ModuleSpec}
    (hnodup : (modules.map (fun m => m.name)).Nodup)
    {levels : List (List String)} {frontier : List String}
    {indeg : String → Int} {seen : Nat}
    (inv : KahnInv modules levels frontier indeg seen) :
    KahnInv modules (levels ++ [sortNames frontier])
      (processLevel (childrenOf modules) (sortNames frontier) indeg).2
      (processLevel (childrenOf modules) (sortNames frontier) indeg).1
      (seen + (sortNames frontier).length) := by
  set lv := sortNames frontier with hlv
  set nf := (processLevel (childrenOf modules) lv indeg).2 with hnf
  have hperm : lv.Perm frontier := sortNames_perm frontier
  have hfrnodup : frontier.Nodup := inv.nodup.of_append_right
  have hlvnodup : lv.Nodup := hperm.nodup_iff.mpr hfrnodup
  have hflat : (levels ++ [lv]).flatten = levels.flatten ++ lv := by simp
  have hdisj : ∀ d, d ∈ lv → d ∉ levels.flatten := by
    intro d hd hdf
    exact (List.disjoint_of_nodup_append inv.nodup) hdf (hperm.mem_iff.mp hd)
  have hEcount : ∀ c, ((lv.flatMap (childrenOf modules)).count c) =
      (depsOf modules c).countP (fun d => decide (d ∈ lv)) :=
    count_flatMap_childrenOf hnodup hlvnodup
  have hindeg1 : ∀ n ∈ modules.map (fun m => m.name),
      (processLevel (childrenOf modules) lv indeg).1 n =
        (((depsOf modules n).countP (fun d => decide (d ∉ levels.flatten ++ lv)) : Nat) : Int) := by
    intro n hn
    rw [processLevel_indeg, inv.indeg_mem n hn, hEcount n,
      countP_split (depsOf modules n) levels.flatten lv hdisj]
    push_cast
    omega
  have hindeg0 : ∀ n, n ∉ modules.map (fun m => m.name) →
      (processLevel (childrenOf modules) lv indeg).1 n = 0 := by
    intro n hn
    rw [processLevel_indeg, inv.indeg_other n hn]
    have hcz : (lv.flatMap (childrenOf modules)).count n = 0 := by
      rw [List.count_eq_zero]
      intro hmem
      rcases List.mem_flatMap.mp hmem with ⟨a, _, hc⟩
      exact hn (childrenOf_subset hc)
    rw [hcz]
    simp
  have hmono : ∀ n, (depsOf modules n).countP (fun d => decide (d ∈ lv)) ≤
      (depsOf modules n).countP (fun d => decide (d ∉ levels.flatten)) := by
    intro n
    apply List.countP_mono_left
    intro d _ hd
    have : d ∈ lv := of_decide_eq_true hd
    exact decide_eq_true (hdisj d this)
  have hmemnames : ∀ n, n ∈ nf → n ∈ modules.map (fun m => m.name) := by
    intro n hmem
    by_contra hn
    have h0 := inv.indeg_other n hn
    have := (processLevel_mem (childrenOf modules) lv indeg n).mp hmem
    rw [h0] at this
    exact absurd this.1 (by omega)
  have hnfiff : ∀ n ∈ modules.map (fun m => m.name),
      (n ∈ nf ↔ n ∉ levels.flatten ++ lv ∧
        ∀ d ∈ depsOf modules n, d ∈ levels.flatten ++ lv) := by
    intro n hn
    rw [processLevel_mem (childrenOf modules) lv indeg n, inv.indeg_mem n hn, hEcount n]
    constructor
    · rintro ⟨hpos, hle⟩
      have hAB : (depsOf modules n).countP (fun d => decide (d ∉ levels.flatten)) =
          (depsOf modules n).countP (fun d => decide (d ∈ lv)) := by
        have := hmono n
        omega
      have hpoint := countP_eq_imp_pointwise
        (p := fun d => decide (d ∈ lv)) (q := fun d => decide (d ∉ levels.flatten))
        (l := depsOf modules n)
        (fun a _ ha => decide_eq_true (hdisj a (of_decide_eq_true ha))) hAB
      have hdeps : ∀ d ∈ depsOf modules n, d ∈ levels.flatten ++ lv := by
        intro d hd
        rw [List.mem_append]
        by_cases hdf : d ∈ levels.flatten
        · exact Or.inl hdf
        · exact Or.inr (of_decide_eq_true (hpoint d hd (decide_eq_true hdf)))
      have hnsub : ¬(∀ d ∈ depsOf modules n, d ∈ levels.flatten) := by
        intro hall
        have : (depsOf modules n).countP (fun d => decide (d ∉ levels.flatten)) = 0 := by
          rw [List.countP_eq_zero]
          intro a ha
          simp [hall a ha]
        omega
      refine ⟨?_, hdeps⟩
      rw [List.mem_append]
      rintro (hinflat | hinlv)
      · exact hnsub (closed_flatten inv.closed hinflat)
      · exact hnsub (((inv.frontier_iff n hn).mp (hperm.mem_iff.mp hinlv)).2)
    · rintro ⟨hnot, hdeps⟩
      have hAB : (depsOf modules n).countP (fun d => decide (d ∉ levels.flatten)) =
          (depsOf modules n).countP (fun d => decide (d ∈ lv)) := by
        apply List.countP_congr
        intro a ha
        have hmem := hdeps a ha
        rw [List.mem_append] at hmem
        rcases hmem with haf | halv
        · have h1 : decide (a ∉ levels.flatten) = false := by
            simp [haf]
          have h2 : decide (a ∈ lv) = false := by
            have : a ∉ lv := fun hc => (hdisj a hc) haf
            simp [this]
          rw [h1, h2]
        · have h1 : decide (a ∉ levels.flatten) = true := decide_eq_true (hdisj a halv)
          have h2 : decide (a ∈ lv) = true := decide_eq_true halv
          rw [h1, h2]
      have hpos : 0 < (depsOf modules n).countP (fun d => decide (d ∉ levels.flatten)) := by
        by_contra hz
        have hzero : (depsOf modules n).countP (fun d => decide (d ∉ levels.flatten)) = 0 := by
          omega
        have hall : ∀ d ∈ depsOf modules n, d ∈ levels.flatten := by
          intro d hd
          have := (List.countP_eq_zero.mp hzero) d hd
          by_contra hdf
          exact this (decide_eq_true hdf)
        have hfr : n ∈ frontier := (inv.frontier_iff n hn).mpr
          ⟨fun hc => hnot (List.mem_append.mpr (Or.inl hc)), hall⟩
        exact hnot (List.mem_append.mpr (Or.inr (hperm.mem_iff.mpr hfr)))
      constructor
      · push_cast
        omega
      · rw [hAB]
  refine ⟨?_, ?_, ?_, ?_, ?_, ?_, ?_, ?_⟩
  · rw [hflat]
    apply List.nodup_append.mpr
    refine ⟨?_, ?_, ?_⟩
    · exact ((hperm.append_left levels.flatten).nodup_iff).mpr inv.nodup
    · exact processLevel_nodup (childrenOf modules) lv indeg
    · intro a ha hanf
      exact ((hnfiff a (hmemnames a hanf)).mp hanf).1 ha
  · intro n hnmem
    rw [hflat] at hnmem
    rcases List.mem_append.mp hnmem with hfl | hnfm
    · rcases List.mem_append.mp hfl with hf | hl
      · exact inv.subset n (List.mem_append.mpr (Or.inl hf))
      · exact inv.subset n (List.mem_append.mpr (Or.inr (hperm.mem_iff.mp hl)))
    · exact hmemnames n hnfm
  · intro n hn
    rw [hflat]
    exact hindeg1 n hn
  · exact hindeg0
  · intro n hn
    rw [hflat]
    exact hnfiff n hn
  · rw [hflat, List.length_append, inv.seen_eq]
  · intro l hl
    rcases List.mem_append.mp hl with hold | hnew
    · exact inv.lvsorted l hold
    · have : l = lv := by simpa using hnew
      rw [this]
      exact sortNames_sorted frontier
  · intro p L s hdecomp n hnL d hd
    rcases snoc_eq_append_cons hdecomp with ⟨s', hxs⟩ | ⟨hp, hL, -⟩
    · exact inv.closed p L s' hxs n hnL d hd
    · subst hp
      have hfr : n ∈ frontier := hperm.mem_iff.mp (hL ▸ hnL)
      have hnn : n ∈ modules.map (fun m => m.name) :=
        inv.subset n (List.mem_append.mpr (Or.inr hfr))
      exact ((inv.frontier_iff n hnn).mp hfr).2 d hd

/-- The result-facing facts carried by the invariant. -/
theorem kahnInv_final {modules : List ModuleSpec} {levels : List (List String)}
    {frontier : List String} {indeg : String → Int} {seen : Nat}
    (inv : KahnInv modules levels frontier indeg seen) :
    seen = levels.flatten.length ∧ levels.flatten.Nodup ∧
    (∀ n ∈ levels.flatten, n ∈ modules.map (fun m => m.name)) ∧
    (∀ lv ∈ levels, List.Pairwise strLeP lv) ∧
    (∀ p lv s, levels = p ++ lv :: s →
      ∀ n ∈ lv, ∀ d ∈ depsOf modules n, d ∈ p.flatten) :=
  ⟨inv.seen_eq, inv.nodup.of_append_left,
    fun n hn => inv.subset n (List.mem_append.mpr (Or.inl hn)),
    inv.lvsorted, inv.closed⟩

/-- Whatever fuel remains, the loop's output levels are duplicate-free
registered names, each level is sorted, dependencies sit in strictly
earlier levels, and the seen counter counts the levelled names. -/
theorem kahnLoop_props {modules : List ModuleSpec}
    (hnodup : (modules.map (fun m => m.name)).Nodup) :
    ∀ (fuel : Nat) (frontier : List String) (indeg : String → Int)
      (seen : Nat) (levels : List (List String)),
      KahnInv modules levels frontier indeg seen →
      (kahnLoop (childrenOf modules) fuel frontier indeg seen levels).2 =
        (kahnLoop (childrenOf modules) fuel frontier indeg seen levels).1.flatten.length ∧
      (kahnLoop (childrenOf modules) fuel frontier indeg seen levels).1.flatten.Nodup ∧
      (∀ n ∈ (kahnLoop (childrenOf modules) fuel frontier indeg seen levels).1.flatten,
        n ∈ modules.map (fun m => m.name)) ∧
      (∀ lv ∈ (kahnLoop (childrenOf modules) fuel frontier indeg seen levels).1,
        List.Pairwise strLeP lv) ∧
      (∀ p lv s,
        (kahnLoop (childrenOf modules) fuel frontier indeg seen levels).1 = p ++ lv :: s →
        ∀ n ∈ lv, ∀ d ∈ depsOf modules n, d ∈ p.flatten) := by
  intro fuel
  induction fuel with
  | zero =>
    intro frontier indeg seen levels inv
    simp only [kahnLoop]
    exact kahnInv_final inv
  | succ fuel ih =>
    intro frontier indeg seen levels inv
    by_cases hfe : frontier.isEmpty
    · simp only [kahnLoop, hfe, if_true]
      exact kahnInv_final inv
    · have hfalse : frontier.isEmpty = false := by
        rwa [Bool.not_eq_true] at hfe
      simp only [kahnLoop, hfalse, Bool.false_eq_true, if_false]
      exact ih _ _ _ _ (kahnInv_step hnodup inv)

/-- With the loop still holding the invariant and every registered name
reachable through the ranking, an empty frontier means every name is
levelled. -/
theorem kahnInv_complete {modules : List ModuleSpec}
    (hnodup : (modules.map (fun m => m.name)).Nodup)
    (hknown : ∀ m ∈ modules, ∀ d ∈ m.deps, d ∈ modules.map (fun m2 => m2.name))
    (r : String → Nat) (hr : ∀ m ∈ modules, ∀ d ∈ m.deps, r d < r m.name)
    {levels : List (List String)} {indeg : String → Int} {seen : Nat}
    (inv : KahnInv modules levels [] indeg seen) :
    ∀ n ∈ modules.map (fun m => m.name), n ∈ levels.flatten := by
  suffices H : ∀ k n, n ∈ modules.map (fun m => m.name) → r n < k → n ∈ levels.flatten by
    exact fun n hn => H (r n + 1) n hn (Nat.lt_succ_self _)
  intro k
  induction k with
  | zero =>
    intro n _ h
    omega
  | succ k ih =>
    intro n hn hlt
    rcases List.mem_map.mp hn with ⟨m, hm, rfl⟩
    have hdeps : ∀ d ∈ depsOf modules m.name, d ∈ levels.flatten := by
      intro d hd
      rw [depsOf_eq hnodup hm] at hd
      exact ih d (hknown m hm d hd) (by have := hr m hm d hd; omega)
    by_contra hnot
    have hmem := (inv.frontier_iff m.name hn).mpr ⟨hnot, hdeps⟩
    cases hmem

/-- With enough fuel and an acyclicity ranking, the loop's seen counter
reaches the full module count. -/
theorem kahnLoop_seen {modules : List ModuleSpec}
    (hnodup : (modules.map (fun m => m.name)).Nodup)
    (hknown : ∀ m ∈ modules, ∀ d ∈ m.deps, d ∈ modules.map (fun m2 => m2.name))
    (r : String → Nat) (hr : ∀ m ∈ modules, ∀ d ∈ m.deps, r d < r m.name) :
    ∀ (fuel : Nat) (frontier : List String) (indeg : String → Int)
      (seen : Nat) (levels : List (List String)),
      KahnInv modules levels frontier indeg seen →
      (modules.map (fun m => m.name)).length ≤ fuel + levels.flatten.length →
      (kahnLoop (childrenOf modules) fuel frontier indeg seen levels).2 =
        (modules.map (fun m => m.name)).length := by
  intro fuel
  induction fuel with
  | zero =>
    intro frontier indeg seen levels inv hbound
    simp only [kahnLoop]
    have hsub : levels.flatten.Subperm (modules.map fun m => m.name) :=
      (inv.nodup.of_append_left).subperm
        (fun n hn => inv.subset n (List.mem_append.mpr (Or.inl hn)))
    have hle := hsub.length_le
    rw [inv.seen_eq]
    omega
  | succ fuel ih =>
    intro frontier indeg seen levels inv hbound
    by_cases hfe : frontier.isEmpty
    · have hfr : frontier = [] := by
        cases frontier
        · rfl
        · simp [List.isEmpty] at hfe
      subst hfr
      simp only [kahnLoop, List.isEmpty_nil, if_true]
      have hcompl := kahnInv_complete hnodup hknown r hr inv
      have hsub1 : (modules.map fun m => m.name).Subperm levels.flatten :=
        hnodup.subperm hcompl
      have hsub2 : levels.flatten.Subperm (modules.map fun m => m.name) :=
        (inv.nodup.of_append_left).subperm
          (fun n hn => inv.subset n (List.mem_append.mpr (Or.inl hn)))
      have h1 := hsub1.length_le
      have h2 := hsub2.length_le
      rw [inv.seen_eq]
      omega
    · have hfalse : frontier.isEmpty = false := by
        rwa [Bool.not_eq_true] at hfe
      have hfne : frontier ≠ [] := by
        intro hnil
        rw [hnil] at hfalse
        simp at hfalse
      simp only [kahnLoop, hfalse, Bool.false_eq_true, if_false]
      apply ih _ _ _ _ (kahnInv_step hnodup inv)
      have hlen : (sortNames frontier).length = frontier.length :=
        (sortNames_perm frontier).length_eq
      have hpos : 0 < frontier.length := by
        cases frontier
        · exact absurd rfl hfne
        · simp
      rw [List.flatten_append]
      simp only [List.flatten_cons, List.flatten_nil, List.append_nil, List.length_append]
      omega

/-- The dependency validation finds no offender exactly when every
declared dependency names a registered module. -/
theorem firstUnknown_eq_none_iff (modules : List ModuleSpec) :
    firstUnknown modules = none ↔
      ∀ m ∈ modules, ∀ d ∈ m.deps, d ∈ modules.map (fun m2 => m2.name) := by
  rw [firstUnknown, List.findSome?_eq_none]
  constructor
  · intro h m hm d hd
    have hmap := h m hm
    rcases hsome : m.deps.find? (fun d => !(modules.any (fun m2 => m2.name == d))) with _ | val
    · have hpred := List.find?_eq_none.mp hsome d hd
      have hany : modules.any (fun m2 => m2.name == d) = true := by
        simpa using hpred
      rcases List.any_eq_true.mp hany with ⟨m2, hm2, hbeq⟩
      exact List.mem_map.mpr ⟨m2, hm2, by simpa using hbeq⟩
    · rw [hsome] at hmap
      simp at hmap
  · intro h m hm
    have hnone : m.deps.find? (fun d => !(modules.any (fun m2 => m2.name == d))) = none := by
      rw [List.find?_eq_none]
      intro d hd
      have hmem := h m hm d hd
      rcases List.mem_map.mp hmem with ⟨m2, hm2, rfl⟩
      have hany : modules.any (fun m2x => m2x.name == m2.name) = true :=
        List.any_eq_true.mpr ⟨m2, hm2, by simp⟩
      simp [hany]
    rw [hnone]
    rfl

/-- Structural facts about any successful levelization, acyclic or not:
the levelled names are exactly as many as the modules, duplicate-free and
registered, each level is sorted, and dependencies sit in strictly
earlier levels. -/
theorem topologicalLevels_props {modules : List ModuleSpec} {L : List (List String)}
    (hnodup : (modules.map (fun m => m.name)).Nodup)
    (h : topologicalLevels modules = .ok L) :
    L.flatten.length = (modules.map (fun m => m.name)).length ∧
    L.flatten.Nodup ∧
    (∀ n ∈ L.flatten, n ∈ modules.map (fun m => m.name)) ∧
    (∀ lv ∈ L, List.Pairwise strLeP lv) ∧
    (∀ p lv s, L = p ++ lv :: s →
      ∀ n ∈ lv, ∀ d ∈ depsOf modules n, d ∈ p.flatten) := by
  cases hfu : firstUnknown modules with
  | some md =>
    simp only [topologicalLevels, hfu] at h
    exact Except.noConfusion h
  | none =>
    simp only [topologicalLevels, hfu] at h
    have hprops := kahnLoop_props hnodup (modules.length + 1) (initFrontier modules)
      (indeg0 modules) 0 [] (kahnInv_init modules hnodup)
    split at h
    next hc =>
      simp only [Except.ok.injEq] at h
      rw [← h]
      refine ⟨?_, hprops.2.1, hprops.2.2.1, hprops.2.2.2.1, hprops.2.2.2.2⟩
      rw [← hprops.1, hc, List.length_map]
    next =>
      simp at h

/-- A successful levelization's levels are a permutation of the module
names. -/
theorem topologicalLevels_perm {modules : List ModuleSpec} {L : List (List String)}
    (hnodup : (modules.map (fun m => m.name)).Nodup)
    (h : topologicalLevels modules = .ok L) :
    L.flatten.Perm (modules.map (fun m => m.name)) := by
  obtain ⟨hlen, hnd, hsub, -, -⟩ := topologicalLevels_props hnodup h
  have hsp : L.flatten.Subperm (modules.map fun m => m.name) := hnd.subperm hsub
  rcases hsp with ⟨l, hlperm, hlsub⟩
  have hleq : l = modules.map fun m => m.name := by
    apply hlsub.eq_of_length
    rw [hlperm.length_eq, hlen]
  rw [← hleq]
  exact hlperm.symm

/-- C4: for every acyclic dependency graph over unique names whose
declared dependencies all refer to known modules (acyclicity witnessed by
a ranking that strictly drops along dependencies), levelization succeeds,
the union of the levels contains every module exactly once (it is a
permutation of the module-name list), every level is sorted
lexicographically by name, and every dependency of a module sits in a
strictly earlier level than the module. -/
theorem topological_levels_correct (modules : List ModuleSpec) (r : String → Nat)
    (hnodup : (modules.map (fun m => m.name)).Nodup)
    (hknown : ∀ m ∈ modules, ∀ d ∈ m.deps, d ∈ modules.map (fun m2 => m2.name))
    (hacyclic : ∀ m ∈ modules, ∀ d ∈ m.deps, r d < r m.name) :
    ∃ L, topologicalLevels modules = .ok L ∧
      L.flatten.Perm (modules.map (fun m => m.name)) ∧
      (∀ lv ∈ L, List.Pairwise strLeP lv) ∧
      (∀ m ∈ modules, ∀ d ∈ m.deps, ∀ p lv s,
        L = p ++ lv :: s → m.name ∈ lv → d ∈ p.flatten) := by
  have hseen := kahnLoop_seen hnodup hknown r hacyclic (modules.length + 1)
    (initFrontier modules) (indeg0 modules) 0 [] (kahnInv_init modules hnodup)
    (by simp [List.length_map])
  have hok : topologicalLevels modules =
      .ok (kahnLoop (childrenOf modules) (modules.length + 1) (initFrontier modules)
        (indeg0 modules) 0 []).1 := by
    have hfu : firstUnknown modules = none := (firstUnknown_eq_none_iff modules).mpr hknown
    have hc : (kahnLoop (childrenOf modules) (modules.length + 1) (initFrontier modules)
        (indeg0 modules) 0 []).2 = modules.length := by
      rw [hseen, List.length_map]
    simp only [topologicalLevels, hfu]
    rw [if_pos hc]
  refine ⟨_, hok, topologicalLevels_perm hnodup hok, ?_, ?_⟩
  · exact (topologicalLevels_props hnodup hok).2.2.2.1
  · intro m hm d hd p lv s hdecomp hmem
    exact (topologicalLevels_props hnodup hok).2.2.2.2 p lv s hdecomp m.name hmem d
      (by rw [depsOf_eq hnodup hm]; exact hd)

/-- C4 witness: the sample graph levelizes to two sorted levels covering
every module once, with dependencies strictly earlier. -/
theorem topological_levels_correct_witness :
    (sampleModules.map (fun m => m.name)).Nodup ∧
    (∀ m ∈ sampleModules, ∀ d ∈ m.deps, d ∈ sampleModules.map (fun m2 => m2.name)) ∧
    (∀ m ∈ sampleModules, ∀ d ∈ m.deps, sampleRank d < sampleRank m.name) ∧
    (∃ L, topologicalLevels sampleModules = .ok L ∧
      L.flatten.Perm (sampleModules.map (fun m => m.name)) ∧
      (∀ lv ∈ L, List.Pairwise strLeP lv) ∧
      (∀ m ∈ sampleModules, ∀ d ∈ m.deps, ∀ p lv s,
        L = p ++ lv :: s → m.name ∈ lv → d ∈ p.flatten)) :=
  ⟨by decide, by decide, by decide,
    topological_levels_correct sampleModules sampleRank (by decide) (by decide) (by decide)⟩

/-- The name dict has as many entries as the module list exactly when
names are unique. -/
theorem dedup_length_eq_iff {l : List String} :
    l.dedup.length = l.length ↔ l.Nodup := by
  constructor
  · intro h
    have heq := (List.dedup_sublist l).eq_of_length h
    rw [← heq]
    exact List.nodup_dedup l
  · intro h
    rw [h.dedup]

/-- Inversion of a successful construction: the constructor validated the
concurrency, the name uniqueness and the levelization, and stored the
inputs unchanged. -/
theorem make_ok_inv {modules : List ModuleSpec} {c : Int}
    {cb1 cb2 : Option (String → Except String Unit)} {ff : Bool}
    {o : PipelineOrchestrator}
    (h : PipelineOrchestrator.make modules c cb1 cb2 ff = .ok o) :
    o._modules = modules ∧ o._concurrency = c ∧ o._fail_fast = ff ∧
    topologicalLevels modules = .ok o._levels ∧ 1 ≤ c ∧
    (modules.map (fun m => m.name)).Nodup := by
  unfold PipelineOrchestrator.make at h
  split at h
  · exact Except.noConfusion h
  next hc =>
    split at h
    · exact Except.noConfusion h
    next hd =>
      cases htopo : topologicalLevels modules with
      | error e =>
        rw [htopo] at h
        exact Except.noConfusion h
      | ok levels =>
        rw [htopo] at h
        simp only [Except.ok.injEq] at h
        subst h
        refine ⟨rfl, rfl, rfl, rfl, by omega, ?_⟩
        have hlen : (modules.map (fun m => m.name)).dedup.length =
            (modules.map (fun m => m.name)).length := by
          rw [List.length_map]
          exact not_ne_iff.mp hd
        exact dedup_length_eq_iff.mp hlen

/-- A successful levelization presupposes that the dependency validation
passed. -/
theorem topologicalLevels_ok_known {modules : List ModuleSpec}
    {L : List (List String)} (h : topologicalLevels modules = .ok L) :
    ∀ m ∈ modules, ∀ d ∈ m.deps, d ∈ modules.map (fun m2 => m2.name) := by
  cases hfu : firstUnknown modules with
  | some md =>
    simp only [topologicalLevels, hfu] at h
    exact Except.noConfusion h
  | none =>
    exact (firstUnknown_eq_none_iff modules).mp hfu

/-- The level index of a name, read off a decomposition, is the length of
the preceding prefix. -/
theorem rankIn_eq {L : List (List String)} (hnd : L.flatten.Nodup)
    {p : List (List String)} {lv : List String} {s : List (List String)}
    (hdecomp : L = p ++ lv :: s) {n : String} (hn : n ∈ lv) :
    rankIn L n = p.length := by
  subst hdecomp
  rw [List.flatten_append] at hnd
  rw [rankIn, List.findIdx_append]
  have hnotp : ∀ l ∈ p, n ∉ l := by
    intro l hl hnl
    have hnp : n ∈ p.flatten := List.mem_flatten.mpr ⟨l, hl, hnl⟩
    exact (List.disjoint_of_nodup_append hnd) hnp
      (by rw [List.flatten_cons]; exact List.mem_append.mpr (Or.inl hn))
  have hfp : List.findIdx (fun lv => decide (n ∈ lv)) p = p.length :=
    List.findIdx_eq_length.mpr (fun l hl => by simpa using hnotp l hl)
  rw [hfp, if_neg (lt_irrefl p.length), List.findIdx_cons]
  simp [hn]

/-- A name in the prefix before a level sits at a strictly smaller level
index than any name of that level. -/
theorem rankIn_lt {L : List (List String)} (hnd : L.flatten.Nodup)
    {p : List (List String)} {lv : List String} {s : List (List String)}
    (hdecomp : L = p ++ lv :: s) {n d : String} (hn : n ∈ lv)
    (hd : d ∈ p.flatten) :
    rankIn L d < rankIn L n := by
  have hrn := rankIn_eq hnd hdecomp hn
  rcases List.mem_flatten.mp hd with ⟨l, hl, hdl⟩
  rcases List.append_of_mem hl with ⟨p₁, p₂, hp⟩
  have hdec2 : L = p₁ ++ l :: (p₂ ++ lv :: s) := by
    rw [hdecomp, hp]
    simp
  have hrd := rankIn_eq hnd hdec2 hdl
  rw [hrn, hrd, hp]
  simp [List.length_append]

/-- run never surfaces a configuration error: every error the loop can
produce is a fail-fast group or an OrchestrationError. -/
theorem runAux_no_config (o : PipelineOrchestrator) (beh : String → ProcBehavior) :
    ∀ (lvs : List (List String)) (st : RunState) (e : ConfigError),
      (runAux o beh lvs st).2 ≠ .error (.config e) := by
  intro lvs
  induction lvs with
  | nil =>
    intro st e
    simp only [runAux]
    unfold finishRun
    split <;> simp
  | cons lv rest ih =>
    intro st e
    simp only [runAux]
    split
    · unfold finishRun
      split <;> simp
    · split
      · split
        · simp
        · exact ih _ e
      · exact ih _ e

/-- C7: every configuration error (non-positive concurrency, duplicate
names, unknown dependency, cycle) is raised synchronously by the
constructor: a constructed Scheduler has a positive concurrency ceiling,
unique module names, only known dependency references, and an acyclic
graph (every dependency sits at a strictly smaller level index); and
run() never raises a configuration error. -/
theorem config_errors_at_construction :
    (∀ (modules : List ModuleSpec) (c : Int)
      (cb1 cb2 : Option (String → Except String Unit)) (ff : Bool)
      (o : PipelineOrchestrator),
      PipelineOrchestrator.make modules c cb1 cb2 ff = .ok o →
      1 ≤ c ∧ (modules.map (fun m => m.name)).Nodup ∧
      (∀ m ∈ modules, ∀ d ∈ m.deps, d ∈ modules.map (fun m2 => m2.name)) ∧
      (∀ m ∈ modules, ∀ d ∈ m.deps,
        rankIn o._levels d < rankIn o._levels m.name)) ∧
    (∀ (o : PipelineOrchestrator) (beh : String → ProcBehavior) (e : ConfigError),
      o.run beh ≠ .error (.config e)) := by
  constructor
  · intro modules c cb1 cb2 ff o h
    obtain ⟨hmods, hconc, hff, htopo, hc, hnodup⟩ := make_ok_inv h
    obtain ⟨hlen, hnd, hsubset, hsort, hclosed⟩ := topologicalLevels_props hnodup htopo
    have hperm := topologicalLevels_perm hnodup htopo
    refine ⟨hc, hnodup, topologicalLevels_ok_known htopo, ?_⟩
    intro m hm d hd
    have hmem : m.name ∈ o._levels.flatten :=
      hperm.mem_iff.mpr (List.mem_map.mpr ⟨m, hm, rfl⟩)
    rcases List.mem_flatten.mp hmem with ⟨lv, hlv, hnlv⟩
    rcases List.append_of_mem hlv with ⟨p, s, hdecomp⟩
    have hdp : d ∈ p.flatten := hclosed p lv s hdecomp m.name hnlv d
      (by rw [depsOf_eq hnodup hm]; exact hd)
    exact rankIn_lt hnd hdecomp hnlv hdp
  · intro o beh e
    exact runAux_no_config o beh o._levels _ e

/-- C7 witness: the sample configuration constructs successfully and has
all the validated properties; its run raises no configuration error. -/
theorem config_errors_at_construction_witness :
    PipelineOrchestrator.make sampleModules 2 none none false = .ok sampleOrchAgg ∧
    (1 ≤ (2 : Int) ∧ (sampleModules.map (fun m => m.name)).Nodup ∧
      (∀ m ∈ sampleModules, ∀ d ∈ m.deps, d ∈ sampleModules.map (fun m2 => m2.name)) ∧
      (∀ m ∈ sampleModules, ∀ d ∈ m.deps,
        rankIn sampleOrchAgg._levels d < rankIn sampleOrchAgg._levels m.name)) ∧
    (∀ e, sampleOrchAgg.run sampleBehBFails ≠ .error (.config e)) :=
  ⟨rfl,
    config_errors_at_construction.1 sampleModules 2 none none false sampleOrchAgg rfl,
    fun e => config_errors_at_construction.2 sampleOrchAgg sampleBehBFails e⟩

/-- Registered names resolve in the module dict. -/
theorem findSpec_mem {modules : List ModuleSpec} {n : String}
    (hn : n ∈ modules.map (fun m => m.name)) :
    ∃ spec, findSpec modules n = some spec := by
  rcases List.mem_map.mp hn with ⟨m, hm, rfl⟩
  have hsome : (modules.find? (fun x => x.name == m.name)).isSome :=
    List.find?_isSome.mpr ⟨m, hm, by simp⟩
  rcases Option.isSome_iff_exists.mp hsome with ⟨spec, hspec⟩
  exact ⟨spec, hspec⟩

/-- Each level contributes one result entry per non-failing member. -/
theorem length_levelSuccesses (o : PipelineOrchestrator) (beh : String → ProcBehavior)
    (l : List String) (hq : ∀ n ∈ l, n ∈ o._modules.map (fun m => m.name)) :
    (levelSuccesses o beh l).length =
      l.countP (fun n => !(moduleFailsB o beh n)) := by
  rw [levelSuccesses, length_filterMap_countP]
  apply List.countP_congr
  intro n hn
  rcases findSpec_mem (hq n hn) with ⟨spec, hfind⟩
  cases hrun : o.runOne beh spec with
  | ok rc => simp [moduleOutcome, moduleFailsB, hfind, hrun]
  | error e => simp [moduleOutcome, moduleFailsB, hfind, hrun]

/-- Each level contributes one failure entry per failing member. -/
theorem length_levelFailures (o : PipelineOrchestrator) (beh : String → ProcBehavior)
    (l : List String) (hq : ∀ n ∈ l, n ∈ o._modules.map (fun m => m.name)) :
    (levelFailures o beh l).length = l.countP (moduleFailsB o beh) := by
  rw [levelFailures, length_filterMap_countP]
  apply List.countP_congr
  intro n hn
  rcases findSpec_mem (hq n hn) with ⟨spec, hfind⟩
  cases hrun : o.runOne beh spec with
  | ok rc => simp [moduleOutcome, moduleFailsB, hfind, hrun]
  | error e => simp [moduleOutcome, moduleFailsB, hfind, hrun]

/-- The failures mapping is keyed by exactly the failing names. -/
theorem map_fst_levelFailures (o : PipelineOrchestrator) (beh : String → ProcBehavior)
    (l : List String) :
    (levelFailures o beh l).map Prod.fst = l.filter (moduleFailsB o beh) := by
  induction l with
  | nil => rfl
  | cons n l ih =>
    rw [levelFailures, List.filterMap_cons] at *
    cases hout : moduleOutcome o beh n with
    | none => simpa [hout, moduleFailsB, List.filter_cons] using ih
    | some r =>
      cases r with
      | ok rc => simpa [hout, moduleFailsB, List.filter_cons] using ih
      | error e => simpa [hout, moduleFailsB, List.filter_cons] using ih

/-- Failing and non-failing members partition a list. -/
theorem countP_fails_add (o : PipelineOrchestrator) (beh : String → ProcBehavior)
    (l : List String) :
    l.countP (moduleFailsB o beh) +
      l.countP (fun n => !(moduleFailsB o beh n)) = l.length := by
  induction l with
  | nil => rfl
  | cons n l ih =>
    simp only [List.countP_cons, List.length_cons]
    cases h : moduleFailsB o beh n <;> simp [h] <;> omega

/-- In aggregate mode the loop walks every level, accumulating the level
successes into the results dict and the level failures into the failures
dict, and finishes with the epilogue. -/
theorem runAux_aggregate {o : PipelineOrchestrator} (hff : o._fail_fast = false)
    (beh : String → ProcBehavior) :
    ∀ (lvs : List (List String)) (st : RunState),
      runAux o beh lvs st =
        ({ results := st.results ++ levelSuccesses o beh lvs.flatten,
           failures := st.failures ++ levelFailures o beh lvs.flatten,
           attempted := st.attempted ++ lvs.flatten },
         finishRun false
           { results := st.results ++ levelSuccesses o beh lvs.flatten,
             failures := st.failures ++ levelFailures o beh lvs.flatten,
             attempted := st.attempted ++ lvs.flatten }) := by
  intro lvs
  induction lvs with
  | nil =>
    intro st
    simp [runAux, levelSuccesses, levelFailures, hff]
  | cons lv rest ih =>
    intro st
    simp only [runAux, hff, List.flatten_cons]
    rw [if_neg (by simp [hff])]
    rw [if_neg (by simp [hff])]
    rw [ih]
    simp [levelSuccesses, levelFailures, List.filterMap_append, List.append_assoc]

/-- Shared facts about a full aggregate-mode run: every module is
attempted, results and failures partition the modules by outcome, and the
epilogue returns or raises accordingly. -/
theorem aggregate_run_facts (modules : List ModuleSpec) (c : Int)
    (cb1 cb2 : Option (String → Except String Unit)) (o : PipelineOrchestrator)
    (h : PipelineOrchestrator.make modules c cb1 cb2 false = .ok o)
    (beh : String → ProcBehavior) :
    (o.runState beh).attempted.Perm (modules.map (fun m => m.name)) ∧
    (o.runState beh).results.length +
      (modules.map (fun m => m.name)).countP (moduleFailsB o beh) =
      (modules.map (fun m => m.name)).length ∧
    (o.runState beh).failures.length =
      (modules.map (fun m => m.name)).countP (moduleFailsB o beh) ∧
    ((modules.map (fun m => m.name)).countP (moduleFailsB o beh) = 0 →
      o.run beh = .ok (o.runState beh).results) ∧
    ((modules.map (fun m => m.name)).countP (moduleFailsB o beh) ≠ 0 →
      o.run beh = .error (.orchestration (o.runState beh).failures)) := by
  obtain ⟨hmods, -, hff, htopo, -, hnodup0⟩ := make_ok_inv h
  subst hmods
  have hperm := topologicalLevels_perm hnodup0 htopo
  have hsubset := (topologicalLevels_props hnodup0 htopo).2.2.1
  have hrunAgg := runAux_aggregate hff beh o._levels
    { results := [], failures := [], attempted := [] }
  have hstate : o.runState beh =
      { results := levelSuccesses o beh o._levels.flatten,
        failures := levelFailures o beh o._levels.flatten,
        attempted := o._levels.flatten } := by
    rw [PipelineOrchestrator.runState, hrunAgg]
    simp
  have hrun : o.run beh = finishRun false (o.runState beh) := by
    rw [PipelineOrchestrator.run, hrunAgg, hstate]
    simp
  have hFeq : o._levels.flatten.countP (moduleFailsB o beh) =
      (o._modules.map (fun m => m.name)).countP (moduleFailsB o beh) :=
    hperm.countP_eq _
  have hflen : o._levels.flatten.length = (o._modules.map (fun m => m.name)).length :=
    hperm.length_eq
  have hfadd := countP_fails_add o beh o._levels.flatten
  have hflens : (o.runState beh).failures.length =
      (o._modules.map (fun m => m.name)).countP (moduleFailsB o beh) := by
    rw [hstate]
    rw [length_levelFailures o beh o._levels.flatten hsubset, hFeq]
  refine ⟨?_, ?_, hflens, ?_, ?_⟩
  · rw [hstate]
    exact hperm
  · rw [hstate]
    rw [length_levelSuccesses o beh o._levels.flatten hsubset]
    omega
  · intro hzero
    have hnil : (o.runState beh).failures = [] :=
      List.length_eq_zero.mp (by rw [hflens, hzero])
    rw [hrun, finishRun, if_neg (by simp [hnil])]
  · intro hnz
    have hne : (o.runState beh).failures ≠ [] := by
      intro hnil
      apply hnz
      rw [← hflens, hnil]
      rfl
    rw [hrun, finishRun, if_pos ⟨rfl, hne⟩]

/-- C5: in aggregate mode every module is attempted, dependents of failed
modules included (the attempted set is a permutation of all module
names); with F failing modules out of N, the run's final result mapping
holds exactly N − F entries and its failures mapping exactly F entries;
run() returns the result mapping when F = 0 and raises the aggregate
error carrying the failures mapping when F > 0. -/
theorem aggregate_mode_counts (modules : List ModuleSpec) (c : Int)
    (cb1 cb2 : Option (String → Except String Unit)) (o : PipelineOrchestrator)
    (h : PipelineOrchestrator.make modules c cb1 cb2 false = .ok o)
    (beh : String → ProcBehavior) :
    (o.runState beh).attempted.Perm (modules.map (fun m => m.name)) ∧
    (o.runState beh).results.length +
      (modules.map (fun m => m.name)).countP (moduleFailsB o beh) =
      (modules.map (fun m => m.name)).length ∧
    (o.runState beh).failures.length =
      (modules.map (fun m => m.name)).countP (moduleFailsB o beh) ∧
    ((modules.map (fun m => m.name)).countP (moduleFailsB o beh) = 0 →
      o.run beh = .ok (o.runState beh).results) ∧
    ((modules.map (fun m => m.name)).countP (moduleFailsB o beh) ≠ 0 →
      o.run beh = .error (.orchestration (o.runState beh).failures)) :=
  aggregate_run_facts modules c cb1 cb2 o h beh

/-- C5 witness: in the sample aggregate run with B failing, all three
modules are attempted, the result mapping has 3 − 1 entries, the failures
mapping has 1, and run raises the aggregate error. -/
theorem aggregate_mode_counts_witness :
    PipelineOrchestrator.make sampleModules 2 none none false = .ok sampleOrchAgg ∧
    (sampleOrchAgg.runState sampleBehBFails).attempted.Perm
      (sampleModules.map (fun m => m.name)) ∧
    (sampleOrchAgg.runState sampleBehBFails).results.length +
      (sampleModules.map (fun m => m.name)).countP
        (moduleFailsB sampleOrchAgg sampleBehBFails) =
      (sampleModules.map (fun m => m.name)).length ∧
    (sampleOrchAgg.runState sampleBehBFails).failures.length =
      (sampleModules.map (fun m => m.name)).countP
        (moduleFailsB sampleOrchAgg sampleBehBFails) ∧
    ((sampleModules.map (fun m => m.name)).countP
        (moduleFailsB sampleOrchAgg sampleBehBFails) ≠ 0 →
      sampleOrchAgg.run sampleBehBFails =
        .error (.orchestration (sampleOrchAgg.runState sampleBehBFails).failures)) := by
  have h := aggregate_mode_counts sampleModules 2 none none sampleOrchAgg rfl sampleBehBFails
  exact ⟨rfl, h.1, h.2.1, h.2.2.1, h.2.2.2.2⟩

/-- C2 counterexample: in the sample aggregate run, module A succeeded
with exit code 0 and C with 0, yet the only object run() surfaces is the
OrchestrationError whose entire payload is B's failure: the successes sit
in the internal result mapping, which is neither returned nor attached to
the error, so the succeeded modules' exit codes are not retrievable by
the caller. -/
theorem orchestration_error_discards_successes_cex :
    PipelineOrchestrator.make sampleModules 2 none none false = .ok sampleOrchAgg ∧
    sampleOrchAgg.run sampleBehBFails =
      .error (.orchestration [("B", ExecError.processError ["bin-b"] 1)]) ∧
    (sampleOrchAgg.runState sampleBehBFails).results = [("A", 0), ("C", 0)] :=
  ⟨rfl, rfl, rfl⟩

/-- C2 (amended): in non-fail-fast mode with at least one failing module,
run() raises the aggregate error carrying the full name-to-error mapping
of exactly the failing modules; the succeeded modules' exit codes are not
surfaced: no result mapping is returned alongside, and the error object
carries only the failures. -/
theorem orchestration_error_carries_failures (modules : List ModuleSpec) (c : Int)
    (cb1 cb2 : Option (String → Except String Unit)) (o : PipelineOrchestrator)
    (h : PipelineOrchestrator.make modules c cb1 cb2 false = .ok o)
    (beh : String → ProcBehavior)
    (hfail : ∃ n ∈ modules.map (fun m => m.name), moduleFailsB o beh n = true) :
    o.run beh = .error (.orchestration (o.runState beh).failures) ∧
    ((o.runState beh).failures.map Prod.fst).Perm
      ((modules.map (fun m => m.name)).filter (moduleFailsB o beh)) ∧
    (∀ res, o.run beh ≠ .ok res) := by
  have hc5 := aggregate_run_facts modules c cb1 cb2 o h beh
  have hnz : (modules.map (fun m => m.name)).countP (moduleFailsB o beh) ≠ 0 := by
    rcases hfail with ⟨n, hn, hfn⟩
    have := List.countP_pos_iff.mpr ⟨n, hn, hfn⟩
    omega
  have hrun := hc5.2.2.2.2 hnz
  obtain ⟨hmods, -, hff, htopo, -, hnodup0⟩ := make_ok_inv h
  subst hmods
  have hperm := topologicalLevels_perm hnodup0 htopo
  have hrunAgg := runAux_aggregate hff beh o._levels
    { results := [], failures := [], attempted := [] }
  have hstate : o.runState beh =
      { results := levelSuccesses o beh o._levels.flatten,
        failures := levelFailures o beh o._levels.flatten,
        attempted := o._levels.flatten } := by
    rw [PipelineOrchestrator.runState, hrunAgg]
    simp
  refine ⟨hrun, ?_, ?_⟩
  · rw [hstate]
    rw [map_fst_levelFailures]
    exact hperm.filter _
  · intro res hres
    rw [hrun] at hres
    exact Except.noConfusion hres

/-- C2 witness (for the amended claim): applied to the sample run. -/
theorem orchestration_error_carries_failures_witness :
    PipelineOrchestrator.make sampleModules 2 none none false = .ok sampleOrchAgg ∧
    (∃ n ∈ sampleModules.map (fun m => m.name),
      moduleFailsB sampleOrchAgg sampleBehBFails n = true) ∧
    sampleOrchAgg.run sampleBehBFails =
      .error (.orchestration (sampleOrchAgg.runState sampleBehBFails).failures) ∧
    ((sampleOrchAgg.runState sampleBehBFails).failures.map Prod.fst).Perm
      ((sampleModules.map (fun m => m.name)).filter
        (moduleFailsB sampleOrchAgg sampleBehBFails)) := by
  have hex : ∃ n ∈ sampleModules.map (fun m => m.name),
      moduleFailsB sampleOrchAgg sampleBehBFails n = true := ⟨"B", by decide, by decide⟩
  have h := orchestration_error_carries_failures sampleModules 2 none none
    sampleOrchAgg rfl sampleBehBFails hex
  exact ⟨rfl, hex, h.1, h.2.1⟩

/-- In fail-fast mode the loop walks clean levels (no failures),
recording their successes, without raising; the failures dict stays
empty because the fail-fast branch never populates it. -/
theorem runAux_ff_clean {o : PipelineOrchestrator} (hff : o._fail_fast = true)
    (beh : String → ProcBehavior) :
    ∀ (p rest : List (List String)) (st : RunState),
      (∀ l ∈ p, levelFailures o beh l = []) → st.failures = [] →
      runAux o beh (p ++ rest) st =
        runAux o beh rest
          { results := st.results ++ levelSuccesses o beh p.flatten,
            failures := st.failures,
            attempted := st.attempted ++ p.flatten } := by
  intro p
  induction p with
  | nil =>
    intro rest st _ _
    simp [levelSuccesses]
  | cons l p ih =>
    intro rest st hclean hfail
    have hl : levelFailures o beh l = [] := hclean l (List.mem_cons_self l p)
    simp only [List.cons_append, runAux]
    rw [if_neg (by simp [hfail])]
    rw [if_pos hff]
    rw [if_neg (by simp [hl])]
    simp only [List.append_eq]
    rw [ih rest
      { results := st.results ++ levelSuccesses o beh l, failures := st.failures,
        attempted := st.attempted ++ l }
      (fun l' hl' => hclean l' (List.mem_cons_of_mem l hl')) hfail]
    simp [levelSuccesses, List.filterMap_append, List.append_assoc, List.flatten_cons]

/-- C3: in fail-fast mode, when every level before level k is clean and
level k contains a failure, run() aborts with the fail-fast error
carrying level k's failures as its sole surfaced object (no result
mapping is returned), the attempted modules are exactly those of levels
up to and including k, and no module of any later level ever starts. -/
theorem failfast_abort (modules : List ModuleSpec) (c : Int)
    (cb1 cb2 : Option (String → Except String Unit)) (o : PipelineOrchestrator)
    (h : PipelineOrchestrator.make modules c cb1 cb2 true = .ok o)
    (beh : String → ProcBehavior) (p : List (List String)) (lv : List String)
    (rest : List (List String)) (hsplit : o._levels = p ++ lv :: rest)
    (hclean : ∀ l ∈ p, levelFailures o beh l = [])
    (hfail : levelFailures o beh lv ≠ []) :
    o.run beh = .error (.failFast (levelFailures o beh lv)) ∧
    (o.runState beh).attempted = p.flatten ++ lv ∧
    (∀ res, o.run beh ≠ .ok res) ∧
    (∀ l ∈ rest, ∀ n ∈ l, n ∉ (o.runState beh).attempted) := by
  obtain ⟨hmods, -, hff, htopo, -, hnodup0⟩ := make_ok_inv h
  subst hmods
  have hnd := (topologicalLevels_props hnodup0 htopo).2.1
  have hstep := runAux_ff_clean hff beh p (lv :: rest)
    { results := [], failures := [], attempted := [] } hclean rfl
  have hone : runAux o beh (lv :: rest)
      { results := levelSuccesses o beh p.flatten, failures := [],
        attempted := p.flatten } =
      ({ results := levelSuccesses o beh p.flatten ++ levelSuccesses o beh lv,
         failures := [], attempted := p.flatten ++ lv },
       .error (.failFast (levelFailures o beh lv))) := by
    simp only [runAux]
    rw [if_neg (by simp)]
    rw [if_pos hff]
    rw [if_pos hfail]
  have hpair : runAux o beh o._levels { results := [], failures := [], attempted := [] } =
      ({ results := levelSuccesses o beh p.flatten ++ levelSuccesses o beh lv,
         failures := [], attempted := p.flatten ++ lv },
       .error (.failFast (levelFailures o beh lv))) := by
    rw [hsplit, hstep]
    simp only [List.nil_append]
    exact hone
  have hrun : o.run beh = .error (.failFast (levelFailures o beh lv)) := by
    rw [PipelineOrchestrator.run, hpair]
  have hatt : (o.runState beh).attempted = p.flatten ++ lv := by
    rw [PipelineOrchestrator.runState, hpair]
  refine ⟨hrun, hatt, ?_, ?_⟩
  · intro res hres
    rw [hrun] at hres
    exact Except.noConfusion hres
  · intro l hl n hn
    rw [hatt]
    have hflat : o._levels.flatten = (p.flatten ++ lv) ++ rest.flatten := by
      rw [hsplit, List.flatten_append, List.flatten_cons, List.append_assoc]
    rw [hflat] at hnd
    have hdisj := List.disjoint_of_nodup_append hnd
    intro hmem
    exact hdisj hmem (List.mem_flatten.mpr ⟨l, hl, hn⟩)

/-- C3 witness: the sample fail-fast run with B failing in level 0 aborts
with B's error; A and B are the attempted set and C never starts. -/
theorem failfast_abort_witness :
    PipelineOrchestrator.make sampleModules 2 none none true = .ok sampleOrchFF ∧
    sampleOrchFF._levels = [] ++ ["A", "B"] :: [["C"]] ∧
    (∀ l ∈ ([] : List (List String)),
      levelFailures sampleOrchFF sampleBehBFails l = []) ∧
    levelFailures sampleOrchFF sampleBehBFails ["A", "B"] ≠ [] ∧
    sampleOrchFF.run sampleBehBFails =
      .error (.failFast (levelFailures sampleOrchFF sampleBehBFails ["A", "B"])) ∧
    (sampleOrchFF.runState sampleBehBFails).attempted =
      List.flatten ([] : List (List String)) ++ ["A", "B"] ∧
    (∀ l ∈ [["C"]], ∀ n ∈ l, n ∉ (sampleOrchFF.runState sampleBehBFails).attempted) := by
  have hfail : levelFailures sampleOrchFF sampleBehBFails ["A", "B"] ≠ [] := by
    decide
  have h := failfast_abort sampleModules 2 none none sampleOrchFF rfl sampleBehBFails
    [] ["A", "B"] [["C"]] rfl (by simp) hfail
  exact ⟨rfl, rfl, by simp, hfail, h.1, h.2.1, h.2.2.2⟩
